import Mathlib

/-!
Verification of the CommPatterns mining engine.

This file gives a shallow embedding of the graph construction and
frequent-pattern-mining code of the repository (graph_builder.py and
pattern_miner.py) and proves or refutes the specified properties.

Modelling conventions:
* NetworkX MultiDiGraph values are embedded as explicit node/edge lists
  (edge lists keep parallel edges and their insertion order).
* Python dictionaries keyed by qubits or wire indices become total
  functions updated with Function.update.
* The Weisfeiler-Lehman hash digest (md5 in networkx) is modelled as the
  identity on the canonical strings: the code treats the digest as
  injective (hash collisions are a documented approximation in the spec),
  so hash equality is modelled as equality of the canonical strings.
* Randomness (random.choice) is modelled by quantifying over an arbitrary
  choice oracle that returns a member of the offered set.
-/

/- ===================================================================
   Part 1: directed multigraphs as used by the exhaustive enumerator
   (pattern_miner.find_subgraphs_of_size_k).
   =================================================================== -/

/-- A directed multigraph with natural-number node identifiers, as the
enumerator sees it: a node set and a list of directed edges (the list may
contain parallel edges; the enumerator only uses successor/predecessor
sets, which deduplicate). -/
structure MGraph where
  nodes : Finset Nat
  edges : List (Nat × Nat)

/-- Well-formedness mirrored from networkx: an edge can only exist between
nodes of the graph (add_edge inserts its endpoints as nodes). -/
def MGraph.WF (G : MGraph) : Prop := ∀ e ∈ G.edges, e.1 ∈ G.nodes ∧ e.2 ∈ G.nodes

instance (G : MGraph) : Decidable G.WF := by
  unfold MGraph.WF; infer_instance

/-- G.successors(n) of networkx: targets of edges leaving n. -/
def MGraph.successors (G : MGraph) (n : Nat) : Finset Nat :=
  (G.edges.filterMap (fun e => if e.1 = n then some e.2 else none)).toFinset

/-- G.predecessors(n) of networkx: sources of edges entering n. -/
def MGraph.predecessors (G : MGraph) (n : Nat) : Finset Nat :=
  (G.edges.filterMap (fun e => if e.2 = n then some e.1 else none)).toFinset

/-- The open neighborhood of a node set used by find_subgraphs_of_size_k:
successors and predecessors of members, minus the set itself. -/
def MGraph.openNbhd (G : MGraph) (s : Finset Nat) : Finset Nat :=
  (s.biUnion (fun n => G.successors n ∪ G.predecessors n)) \ s

/-- One round of the breadth-wise expansion in find_subgraphs_of_size_k:
grow every current set by one open-neighborhood node, deduplicating. -/
def growStep (G : MGraph) (cur : Finset (Finset Nat)) : Finset (Finset Nat) :=
  cur.biUnion (fun s => (G.openNbhd s).image (fun v => insert v s))

/-- Embedding of pattern_miner.find_subgraphs_of_size_k: for k < 1 return
the empty set, otherwise start from all singletons and expand k-1 times.
(The early `break` of the Python loop is equivalent to continuing, since
expanding an empty collection yields an empty collection.) -/
def find_subgraphs_of_size_k (G : MGraph) (k : Nat) : Finset (Finset Nat) :=
  if k < 1 then ∅
  else (growStep G)^[k - 1] (G.nodes.image (fun n => ({n} : Finset Nat)))

/-- Undirected adjacency (edges treated as bidirectional). -/
def MGraph.adjacent (G : MGraph) (u v : Nat) : Prop :=
  (u, v) ∈ G.edges ∨ (v, u) ∈ G.edges

instance (G : MGraph) (u v : Nat) : Decidable (G.adjacent u v) := by
  unfold MGraph.adjacent; infer_instance

/-- One undirected step inside the node set s. -/
def stepIn (G : MGraph) (s : Finset Nat) (u v : Nat) : Prop :=
  u ∈ s ∧ v ∈ s ∧ G.adjacent u v

/-- Reachability inside the induced subgraph on s. -/
def reachIn (G : MGraph) (s : Finset Nat) (u v : Nat) : Prop :=
  Relation.ReflTransGen (stepIn G s) u v

/-- The subgraph of G induced by s is connected (edges bidirectional):
s is nonempty and every two members are joined by a path inside s. -/
def connectedIn (G : MGraph) (s : Finset Nat) : Prop :=
  s.Nonempty ∧ ∀ u ∈ s, ∀ v ∈ s, reachIn G s u v

lemma MGraph.adjacent_symm {G : MGraph} {u v : Nat} (h : G.adjacent u v) :
    G.adjacent v u := h.elim Or.inr Or.inl

lemma MGraph.adjacent_iff_mem_nbrs {G : MGraph} {u v : Nat} :
    G.adjacent u v ↔ v ∈ G.successors u ∪ G.predecessors u := by
  simp only [MGraph.adjacent, MGraph.successors, MGraph.predecessors, Finset.mem_union,
    List.mem_toFinset, List.mem_filterMap]
  constructor
  · rintro (h | h)
    · exact Or.inl ⟨(u, v), h, by simp⟩
    · exact Or.inr ⟨(v, u), h, by simp⟩
  · rintro (⟨⟨a, b⟩, hm, he⟩ | ⟨⟨a, b⟩, hm, he⟩)
    · obtain ⟨ha, hb⟩ : a = u ∧ b = v := by
        by_cases ha : a = u
        · simp [ha] at he
          exact ⟨ha, he⟩
        · simp [ha] at he
      subst ha; subst hb
      exact Or.inl hm
    · obtain ⟨hb, ha⟩ : b = u ∧ a = v := by
        by_cases hb : b = u
        · simp [hb] at he
          exact ⟨hb, he⟩
        · simp [hb] at he
      subst ha; subst hb
      exact Or.inr hm

lemma stepIn_symm {G : MGraph} {s : Finset Nat} :
    Symmetric (stepIn G s) := by
  rintro u v ⟨hu, hv, hadj⟩
  exact ⟨hv, hu, MGraph.adjacent_symm hadj⟩

lemma reachIn_symm {G : MGraph} {s : Finset Nat} {u v : Nat}
    (h : reachIn G s u v) : reachIn G s v u :=
  Relation.ReflTransGen.symmetric stepIn_symm h

lemma reachIn_mono {G : MGraph} {s t : Finset Nat} (hst : s ⊆ t) {u v : Nat}
    (h : reachIn G s u v) : reachIn G t u v :=
  Relation.ReflTransGen.mono (fun _ _ hs => ⟨hst hs.1, hst hs.2.1, hs.2.2⟩) h

/-- Growing a connected set by a node adjacent to one of its members keeps
it connected. -/
lemma connectedIn_insert {G : MGraph} {s : Finset Nat} {u v : Nat}
    (hc : connectedIn G s) (hu : u ∈ s) (hadj : G.adjacent u v) :
    connectedIn G (insert v s) := by
  obtain ⟨hne, hreach⟩ := hc
  refine ⟨⟨v, Finset.mem_insert_self v s⟩, ?_⟩
  have hsub : s ⊆ insert v s := Finset.subset_insert v s
  have hvu : reachIn G (insert v s) v u :=
    Relation.ReflTransGen.single
      ⟨Finset.mem_insert_self v s, hsub hu, MGraph.adjacent_symm hadj⟩
  have key : ∀ x ∈ insert v s, reachIn G (insert v s) v x := by
    intro x hx
    rcases Finset.mem_insert.mp hx with hxv | hxs
    · exact hxv ▸ Relation.ReflTransGen.refl
    · exact hvu.trans (reachIn_mono hsub (hreach u hu x hxs))
  intro x hx y hy
  exact (reachIn_symm (key x hx)).trans (key y hy)

/-- Bounded-length reachability inside s (the path has exactly n steps,
appended at the end). -/
def reachN (G : MGraph) (s : Finset Nat) : Nat → Nat → Nat → Prop
  | 0, u, v => u = v
  | n + 1, u, v => ∃ x, reachN G s n u x ∧ stepIn G s x v

lemma reachN_reachIn {G : MGraph} {s : Finset Nat} :
    ∀ {n u v}, reachN G s n u v → reachIn G s u v := by
  intro n
  induction n with
  | zero => intro u v h; exact h ▸ Relation.ReflTransGen.refl
  | succ n ih =>
    rintro u v ⟨x, hx, hstep⟩
    exact (ih hx).tail hstep

lemma reachIn_exists_reachN {G : MGraph} {s : Finset Nat} {u v : Nat}
    (h : reachIn G s u v) : ∃ n, reachN G s n u v := by
  induction h with
  | refl => exact ⟨0, rfl⟩
  | tail _ hstep ih =>
    obtain ⟨n, hn⟩ := ih
    exact ⟨n + 1, _, hn, hstep⟩

lemma reachN_mem_right {G : MGraph} {s : Finset Nat} {n u v : Nat}
    (h : reachN G s n u v) (hn : n ≠ 0) : v ∈ s := by
  cases n with
  | zero => exact absurd rfl hn
  | succ m => obtain ⟨x, _, hstep⟩ := h; exact hstep.2.1

/-- Every connected set with at least two nodes has a vertex whose removal
leaves it connected, and which is adjacent to the rest: remove a vertex at
maximal BFS distance from a fixed base point. -/
lemma connectedIn_exists_removable {G : MGraph} {s : Finset Nat}
    (h2 : 2 ≤ s.card) (hc : connectedIn G s) :
    ∃ v ∈ s, connectedIn G (s.erase v) ∧ ∃ u ∈ s.erase v, G.adjacent u v := by
  classical
  obtain ⟨hne, hreach⟩ := hc
  obtain ⟨u, hu⟩ := hne
  have hex : ∀ w ∈ s, ∃ n, reachN G s n u w := fun w hw =>
    reachIn_exists_reachN (hreach u hu w hw)
  -- BFS distance from u inside s
  let d : Nat → Nat := fun w => if hw : w ∈ s then Nat.find (hex w hw) else 0
  have hd_spec : ∀ w (hw : w ∈ s), reachN G s (d w) u w := by
    intro w hw
    have : d w = Nat.find (hex w hw) := dif_pos hw
    rw [this]
    exact Nat.find_spec (hex w hw)
  have hd_min : ∀ w (hw : w ∈ s) m, reachN G s m u w → d w ≤ m := by
    intro w hw m hm
    have : d w = Nat.find (hex w hw) := dif_pos hw
    rw [this]
    exact Nat.find_le hm
  have hdu : d u = 0 := Nat.le_zero.mp (hd_min u hu 0 rfl)
  obtain ⟨v, hv, hvmax⟩ := s.exists_max_image d ⟨u, hu⟩
  -- the maximal distance is positive, so v ≠ u
  obtain ⟨w, hw, hwu⟩ : ∃ w ∈ s, w ≠ u :=
    Finset.exists_ne_of_one_lt_card (by omega) u
  have hdw : 1 ≤ d w := by
    by_contra h
    have h0 : d w = 0 := by omega
    have := hd_spec w hw
    rw [h0] at this
    exact hwu this.symm
  have hdv : 1 ≤ d v := le_trans hdw (hvmax w hw)
  have hvu : v ≠ u := fun h => by rw [h, hdu] at hdv; omega
  -- every non-v member is reachable from u avoiding v
  have key : ∀ m, ∀ w ∈ s, w ≠ v → d w = m → reachIn G (s.erase v) u w := by
    intro m
    induction m using Nat.strong_induction_on with
    | _ m IH =>
      intro w hw hwv hdm
      cases m with
      | zero =>
        have := hd_spec w hw
        rw [hdm] at this
        exact this ▸ Relation.ReflTransGen.refl
      | succ n =>
        have hstep := hd_spec w hw
        rw [hdm] at hstep
        obtain ⟨x, hx, hxw⟩ := hstep
        have hxs : x ∈ s := by
          cases n with
          | zero => exact hx ▸ hu
          | succ p => exact reachN_mem_right hx (by omega)
        have hdx : d x ≤ n := hd_min x hxs n hx
        have hxv : x ≠ v := by
          intro h
          subst h
          have : d w ≤ d x := hvmax w hw
          omega
        have hux : reachIn G (s.erase v) u x :=
          IH (d x) (by omega) x hxs hxv rfl
        exact hux.tail ⟨Finset.mem_erase.mpr ⟨hxv, hxs⟩,
          Finset.mem_erase.mpr ⟨hwv, hw⟩, hxw.2.2⟩
  refine ⟨v, hv, ⟨⟨u, Finset.mem_erase.mpr ⟨Ne.symm hvu, hu⟩⟩, ?_⟩, ?_⟩
  · intro x hx y hy
    obtain ⟨hxv, hxs⟩ := Finset.mem_erase.mp hx
    obtain ⟨hyv, hys⟩ := Finset.mem_erase.mp hy
    exact (reachIn_symm (key (d x) x hxs hxv rfl)).trans (key (d y) y hys hyv rfl)
  · -- the last step of a shortest path to v provides an adjacent member
    have hstep := hd_spec v hv
    obtain ⟨n, hn⟩ : ∃ n, d v = n + 1 := ⟨d v - 1, by omega⟩
    rw [hn] at hstep
    obtain ⟨x, hx, hxv⟩ := hstep
    have hxs : x ∈ s := by
      cases n with
      | zero => exact hx ▸ hu
      | succ p => exact reachN_mem_right hx (by omega)
    have hxne : x ≠ v := by
      intro h
      subst h
      have := hd_min x hxs n hx
      omega
    exact ⟨x, Finset.mem_erase.mpr ⟨hxne, hxs⟩, hxv.2.2⟩

/-- Shape of one expansion level: membership characterization. -/
lemma mem_growStep {G : MGraph} {cur : Finset (Finset Nat)} {S : Finset Nat} :
    S ∈ growStep G cur ↔ ∃ s ∈ cur, ∃ v ∈ G.openNbhd s, S = insert v s := by
  simp only [growStep, Finset.mem_biUnion, Finset.mem_image]
  constructor
  · rintro ⟨s, hs, v, hv, rfl⟩; exact ⟨s, hs, v, hv, rfl⟩
  · rintro ⟨s, hs, v, hv, rfl⟩; exact ⟨s, hs, v, hv, rfl⟩

lemma mem_openNbhd_iff {G : MGraph} {s : Finset Nat} {v : Nat} :
    v ∈ G.openNbhd s ↔ v ∉ s ∧ ∃ u ∈ s, G.adjacent u v := by
  simp only [MGraph.openNbhd, Finset.mem_sdiff, Finset.mem_biUnion]
  constructor
  · rintro ⟨⟨u, hu, hmem⟩, hv⟩
    exact ⟨hv, u, hu, MGraph.adjacent_iff_mem_nbrs.mpr hmem⟩
  · rintro ⟨hv, u, hu, hadj⟩
    exact ⟨⟨u, hu, MGraph.adjacent_iff_mem_nbrs.mp hadj⟩, hv⟩

/-- Full characterization of the expansion levels: after j rounds the
collection holds exactly the connected induced node sets of size j+1. -/
lemma iterate_growStep_eq {G : MGraph} (hWF : G.WF) :
    ∀ j S, S ∈ (growStep G)^[j] (G.nodes.image (fun n => ({n} : Finset Nat))) ↔
      S ⊆ G.nodes ∧ S.card = j + 1 ∧ connectedIn G S := by
  intro j
  induction j with
  | zero =>
    intro S
    simp only [Function.iterate_zero, id_eq, Finset.mem_image]
    constructor
    · rintro ⟨n, hn, rfl⟩
      refine ⟨by simpa using hn, by simp, ⟨n, by simp⟩, ?_⟩
      intro u hu v hv
      simp only [Finset.mem_singleton] at hu hv
      subst hu; subst hv
      exact Relation.ReflTransGen.refl
    · rintro ⟨hsub, hcard, _⟩
      obtain ⟨n, rfl⟩ := Finset.card_eq_one.mp hcard
      exact ⟨n, hsub (Finset.mem_singleton_self n), rfl⟩
  | succ j ih =>
    intro S
    rw [Function.iterate_succ_apply', mem_growStep]
    constructor
    · rintro ⟨s, hs, v, hv, rfl⟩
      obtain ⟨hsub, hcard, hconn⟩ := (ih s).mp hs
      obtain ⟨hvs, u, hu, hadj⟩ := mem_openNbhd_iff.mp hv
      have hvnode : v ∈ G.nodes := by
        rcases hadj with h | h
        · exact (hWF _ h).2
        · exact (hWF _ h).1
      refine ⟨Finset.insert_subset hvnode hsub, ?_, connectedIn_insert hconn hu hadj⟩
      rw [Finset.card_insert_of_not_mem hvs, hcard]
    · rintro ⟨hsub, hcard, hconn⟩
      have h2 : 2 ≤ S.card := by omega
      obtain ⟨v, hv, hconn', u, hu, hadj⟩ := connectedIn_exists_removable h2 hconn
      refine ⟨S.erase v, (ih _).mpr ⟨(Finset.erase_subset v S).trans hsub, ?_, hconn'⟩,
        v, ?_, (Finset.insert_erase hv).symm⟩
      · rw [Finset.card_erase_of_mem hv, hcard]
        omega
      · exact mem_openNbhd_iff.mpr ⟨Finset.not_mem_erase v S, u, hu, hadj⟩

/-- Claim C1: for every directed multigraph G and every k >= 1, the
exhaustive enumerator find_subgraphs_of_size_k returns exactly the node
sets S of size k whose induced subgraph is connected (edges treated as
bidirectional), and the function is deterministic (running it twice yields
the identical collection). -/
theorem find_subgraphs_of_size_k_correct (G : MGraph) (k : Nat)
    (hWF : G.WF) (hk : 1 ≤ k) :
    (∀ S : Finset Nat,
        S ∈ find_subgraphs_of_size_k G k ↔
          S ⊆ G.nodes ∧ S.card = k ∧ connectedIn G S)
    ∧ find_subgraphs_of_size_k G k = find_subgraphs_of_size_k G k := by
  refine ⟨?_, rfl⟩
  intro S
  have hnot : ¬ k < 1 := by omega
  rw [find_subgraphs_of_size_k, if_neg hnot, iterate_growStep_eq hWF (k - 1) S]
  have : k - 1 + 1 = k := by omega
  rw [this]

/-- Concrete check for C1 on the path graph 0 → 1 → 2 with k = 2. -/
theorem find_subgraphs_of_size_k_correct_witness :
    ({0, 1} : Finset Nat) ⊆ (MGraph.mk {0, 1, 2} [(0, 1), (1, 2)]).nodes ∧
      ({0, 1} : Finset Nat).card = 2 ∧
      connectedIn (MGraph.mk {0, 1, 2} [(0, 1), (1, 2)]) {0, 1} :=
  ((find_subgraphs_of_size_k_correct (MGraph.mk {0, 1, 2} [(0, 1), (1, 2)]) 2
      (by decide) (by decide)).1 {0, 1}).mp (by decide)

/- ===================================================================
   Part 2: circuit model and the two graph builders (graph_builder.py).

   A qubit is identified by its register and its index inside that
   register; `Qubit.idx` models the qiskit attribute `q._index`, which is
   register-relative.  `Circuit.qubits` is the globally ordered wire list
   (`circuit.qubits`), and the global index of a wire is its position in
   that list (the builder's `q_map`).  The operation stream is the
   already-flattened, topologically ordered instruction list.
   =================================================================== -/

/-- A wire: register identity plus register-relative index (q._index). -/
structure Qubit where
  reg : Nat
  idx : Nat
deriving DecidableEq, Repr

/-- One operation of the flattened stream: name and ordered wire list. -/
structure Oper where
  name : String
  qargs : List Qubit
deriving DecidableEq, Repr

/-- A circuit: the globally ordered wire list and the operation stream. -/
structure Circuit where
  qubits : List Qubit
  ops : List Oper
deriving DecidableEq, Repr

/-- The builder's q_map: global index of a wire = its position in the
declared wire list. -/
def qGlobal (c : Circuit) (q : Qubit) : Nat := c.qubits.indexOf q

/-- Node of the dataflow graph: one operation occurrence.  The stored
`qubits` attribute is the list of `q._index` values, exactly as the code
stores it (`qubits=[q._index for q in node.qargs]`).  The layout-only
float attribute avg_qubit is omitted. -/
structure DFNode where
  id : Nat
  name : String
  qubits : List Nat
  layer : Nat
deriving DecidableEq, Repr

/-- Dataflow edge; `qubit` is the stored tag `qubit=q._index`. -/
structure DFEdge where
  src : Nat
  dst : Nat
  qubit : Nat
deriving DecidableEq, Repr

/-- The dataflow multigraph (nodes in creation order, edges in insertion
order; parallel edges are kept). -/
structure DFGraph where
  nodes : List DFNode
  edges : List DFEdge
deriving DecidableEq, Repr

/-- Builder state for build_graph_from_circuit: the graph so far, the
per-wire last node (keyed by the qubit object, as the Python dict is),
the per-wire depth, and the next node id. -/
structure DFState where
  graph : DFGraph
  lastOn : Qubit → Option Nat
  depth : Qubit → Nat
  nextId : Nat

/-- current_layer: 1 if no wires, else 1 + max depth of the touched
wires (depths are non-negative, so folding max from 0 agrees). -/
def dfLayer (depth : Qubit → Nat) (qargs : List Qubit) : Nat :=
  1 + qargs.foldl (fun m q => max m (depth q)) 0

/-- The per-wire body of the edge loop of build_graph_from_circuit:
emit an edge from the previous toucher (if any), then update the
last-node and depth maps.  Processing is sequential, exactly as in the
Python loop. -/
def dfProcessQubit (nid layer : Nat)
    (st : List DFEdge × (Qubit → Option Nat) × (Qubit → Nat)) (q : Qubit) :
    List DFEdge × (Qubit → Option Nat) × (Qubit → Nat) :=
  let es' := match st.2.1 q with
    | some p => st.1 ++ [DFEdge.mk p nid q.idx]
    | none => st.1
  (es', Function.update st.2.1 q (some nid), Function.update st.2.2 q layer)

/-- Processing one operation of the stream in build_graph_from_circuit. -/
def dfProcessOp (st : DFState) (op : Oper) : DFState :=
  let layer := dfLayer st.depth op.qargs
  let nid := st.nextId
  let node : DFNode := ⟨nid, op.name, op.qargs.map Qubit.idx, layer⟩
  let inner := op.qargs.foldl (dfProcessQubit nid layer) (st.graph.edges, st.lastOn, st.depth)
  ⟨⟨st.graph.nodes ++ [node], inner.1⟩, inner.2.1, inner.2.2, nid + 1⟩

/-- Embedding of graph_builder.build_graph_from_circuit on an already
flattened stream (flattening/decomposition is the external collaborator). -/
def build_graph_from_circuit (c : Circuit) : DFGraph :=
  (c.ops.foldl dfProcessOp ⟨⟨[], []⟩, fun _ => none, fun _ => 0, 0⟩).graph

/-- Edge kind tag of the interaction graph ('type' attribute). -/
inductive EdgeType where
  | flow
  | interaction
deriving DecidableEq, Repr

/-- Node of the interaction graph: one wire instance at one multi-wire
operation.  `qubit_index` is the global wire index (q_map). -/
structure INode where
  id : Nat
  label : String
  qubit_index : Nat
  op_name : String
  layer : Nat
deriving DecidableEq, Repr

/-- Interaction-graph edge: flow (weight 1, no label) or interaction
(weight 2, labelled with the operation name). -/
structure IEdge where
  src : Nat
  dst : Nat
  etype : EdgeType
  weight : Nat
  label : Option String
deriving DecidableEq, Repr

/-- The interaction multigraph. -/
structure IGraph where
  nodes : List INode
  edges : List IEdge
deriving DecidableEq, Repr

/-- Operation names excluded from the interaction graph. -/
def excludedNames : List String := ["barrier", "snapshot", "delay"]

/-- An operation contributes to the interaction graph iff it touches at
least two wires and is not an excluded name (the code `continue`s
otherwise). -/
def includedB (op : Oper) : Bool :=
  decide (2 ≤ op.qargs.length) && !(excludedNames.contains op.name)

/-- Builder state for build_interaction_graph; last-node and depth maps
are keyed by the global wire index. -/
structure IState where
  graph : IGraph
  lastOn : Nat → Option Nat
  depth : Nat → Nat
  nextId : Nat

/-- State of the per-wire loop inside one operation: the running builder
state plus the current_interaction_nodes dictionary. -/
structure IOpState where
  graph : IGraph
  lastOn : Nat → Option Nat
  depth : Nat → Nat
  nextId : Nat
  interDict : Nat → Option Nat

/-- current_layer of an interaction: 1 + max depth over the touched
global indices (the wire list is nonempty for processed operations). -/
def iLayer (depth : Nat → Nat) (idxs : List Nat) : Nat :=
  1 + idxs.foldl (fun m i => max m (depth i)) 0

/-- The per-wire body of build_interaction_graph's node loop: create
the node, add the flow edge from the previous instance on the same
global wire, record the node in the interaction dictionary, update
trackers. -/
def iProcessQubit (qmap : Qubit → Nat) (opName : String) (layer : Nat)
    (st : IOpState) (q : Qubit) : IOpState :=
  let w := qmap q
  let nid := st.nextId
  let node : INode := ⟨nid, "Q" ++ toString w, w, opName, layer⟩
  let flowE : List IEdge := match st.lastOn w with
    | some p => [⟨p, nid, EdgeType.flow, 1, none⟩]
    | none => []
  ⟨⟨st.graph.nodes ++ [node], st.graph.edges ++ flowE⟩,
    Function.update st.lastOn w (some nid),
    Function.update st.depth w layer,
    nid + 1,
    Function.update st.interDict w (some nid)⟩

/-- Processing one operation in build_interaction_graph: skip single-wire
and excluded operations; otherwise create one node per wire (with flow
edges) and then the interaction star from every non-last wire's node to
the last wire's node. -/
def iProcessOp (qmap : Qubit → Nat) (st : IState) (op : Oper) : IState :=
  if includedB op then
    let layer := iLayer st.depth (op.qargs.map qmap)
    let st1 : IOpState := ⟨st.graph, st.lastOn, st.depth, st.nextId, fun _ => none⟩
    let st2 := op.qargs.foldl (iProcessQubit qmap op.name layer) st1
    let targetIdx := qmap ((op.qargs.getLast?).getD ⟨0, 0⟩)
    let targetNode := (st2.interDict targetIdx).getD 0
    let interE := op.qargs.dropLast.map (fun cq =>
      (⟨(st2.interDict (qmap cq)).getD 0, targetNode, EdgeType.interaction, 2,
        some op.name⟩ : IEdge))
    ⟨⟨st2.graph.nodes, st2.graph.edges ++ interE⟩, st2.lastOn, st2.depth, st2.nextId⟩
  else st

/-- Embedding of graph_builder.build_interaction_graph. -/
def build_interaction_graph (c : Circuit) : IGraph :=
  (c.ops.foldl (iProcessOp (qGlobal c)) ⟨⟨[], []⟩, fun _ => none, fun _ => 0, 0⟩).graph

/-- A two-register circuit: registers 0 and 1, each with one qubit of
register-relative index 0.  Wires a[0] and b[0] are distinct but share
q._index = 0. -/
def cexTwoReg : Circuit := ⟨[⟨0, 0⟩, ⟨1, 0⟩], [⟨"x", [⟨0, 0⟩]⟩, ⟨"x", [⟨1, 0⟩]⟩]⟩

/-- The two-register circuit extended with a cx across the registers. -/
def cexTwoRegCx : Circuit :=
  ⟨[⟨0, 0⟩, ⟨1, 0⟩],
   [⟨"x", [⟨0, 0⟩]⟩, ⟨"x", [⟨1, 0⟩]⟩, ⟨"cx", [⟨0, 0⟩, ⟨1, 0⟩]⟩]⟩

/-- Claim C8 (code bug evidence): build_graph_from_circuit stores the
register-relative q._index in the node attribute `qubits` (and in the
edge tag), not the global wire index.  On a circuit with two registers,
the two operations touch the distinct wires a[0] and b[0], whose global
indices (q_map order) are 0 and 1, yet both dataflow nodes store the
colliding index list [0].  (build_interaction_graph uses the global
q_map and its own comment documents that q._index collides across
registers, so the dataflow builder's use of q._index is a slip.) -/
theorem dataflow_stores_register_relative_indices :
    (build_graph_from_circuit cexTwoReg).nodes.map DFNode.qubits = [[0], [0]] ∧
    (⟨0, 0⟩ : Qubit) ≠ (⟨1, 0⟩ : Qubit) ∧
    qGlobal cexTwoReg ⟨0, 0⟩ = 0 ∧ qGlobal cexTwoReg ⟨1, 0⟩ = 1 := by
  decide

/-- Claim C2 counterexample: on the two-register circuit, node 2 (the cx)
has two incoming dataflow edges tagged with wire index 0 — one from each
register's x gate — so the edges tagged with a wire index do not form a
simple path and a node can have two incoming edges for one stored wire
tag. -/
theorem dataflow_edge_tag_not_simple_path :
    ¬ (((build_graph_from_circuit cexTwoRegCx).edges.filter
        (fun e => decide ((e.dst, e.qubit) = ((2 : Nat), (0 : Nat))))).length ≤ 1) := by
  decide

/-- The t-th operation of the stream (dummy operation out of range). -/
def opAt (c : Circuit) (t : Nat) : Oper := c.ops.getD t ⟨"", []⟩

/-- The last operation index before t that touches wire q, if any
(the value of the last_node_on_qubit dict after t operations, since in
the dataflow graph node ids coincide with operation indices). -/
def lastTouch (c : Circuit) : Nat → Qubit → Option Nat
  | 0, _ => none
  | t + 1, q => if q ∈ (opAt c t).qargs then some t else lastTouch c t q

/-- The dataflow edge list after processing t operations, described
operation by operation. -/
def dfEdgesSpec (c : Circuit) : Nat → List DFEdge
  | 0 => []
  | t + 1 => dfEdgesSpec c t ++ (opAt c t).qargs.filterMap
      (fun q => (lastTouch c t q).map (fun p => DFEdge.mk p t q.idx))

/-- The projection of the dataflow node list after t operations:
node j carries operation j's name and its stored q._index list. -/
def dfNodesProj (c : Circuit) (t : Nat) : List (Nat × String × List Nat) :=
  (List.range t).map (fun j => (j, (opAt c j).name, (opAt c j).qargs.map Qubit.idx))

lemma dfFold_edges (nid layer : Nat) :
    ∀ (l : List Qubit) (es : List DFEdge) (lo : Qubit → Option Nat) (dp : Qubit → Nat),
      l.Nodup →
      (l.foldl (dfProcessQubit nid layer) (es, lo, dp)).1 =
        es ++ l.filterMap (fun q => (lo q).map (fun p => DFEdge.mk p nid q.idx)) := by
  intro l
  induction l with
  | nil => intro es lo dp _; simp
  | cons a t ih =>
    intro es lo dp hnd
    obtain ⟨hat, hndt⟩ := List.nodup_cons.mp hnd
    have hcongr : t.filterMap
        (fun q => ((Function.update lo a (some nid)) q).map (fun p => DFEdge.mk p nid q.idx)) =
        t.filterMap (fun q => (lo q).map (fun p => DFEdge.mk p nid q.idx)) := by
      apply List.filterMap_congr
      intro q hq
      have hqa : q ≠ a := fun h => hat (h ▸ hq)
      rw [Function.update_noteq hqa]
    rw [List.foldl_cons]
    cases hlo : lo a with
    | none =>
      rw [show dfProcessQubit nid layer (es, lo, dp) a =
        (es, Function.update lo a (some nid), Function.update dp a layer) by
          simp [dfProcessQubit, hlo]]
      rw [ih _ _ _ hndt, hcongr, List.filterMap_cons]
      simp [hlo]
    | some p =>
      rw [show dfProcessQubit nid layer (es, lo, dp) a =
        (es ++ [DFEdge.mk p nid a.idx], Function.update lo a (some nid),
          Function.update dp a layer) by simp [dfProcessQubit, hlo]]
      rw [ih _ _ _ hndt, hcongr, List.filterMap_cons]
      simp [hlo]

lemma dfFold_lastOn (nid layer : Nat) :
    ∀ (l : List Qubit) (es : List DFEdge) (lo : Qubit → Option Nat) (dp : Qubit → Nat),
      (l.foldl (dfProcessQubit nid layer) (es, lo, dp)).2.1 =
        fun q => if q ∈ l then some nid else lo q := by
  intro l
  induction l with
  | nil => intro es lo dp; funext q; simp
  | cons a t ih =>
    intro es lo dp
    rw [List.foldl_cons]
    have : dfProcessQubit nid layer (es, lo, dp) a =
        ((dfProcessQubit nid layer (es, lo, dp) a).1,
          Function.update lo a (some nid), Function.update dp a layer) := by
      simp [dfProcessQubit]
    rw [this, ih]
    funext q
    by_cases hqt : q ∈ t
    · simp [hqt]
    · by_cases hqa : q = a
      · subst hqa
        simp [hqt, Function.update_same]
      · simp [hqt, hqa, Function.update_noteq hqa]

/-- The dataflow builder's state after t operations, described by the
spec-level recursions. -/
lemma dfFoldInvariant (c : Circuit) (hops : ∀ op ∈ c.ops, op.qargs.Nodup) :
    ∀ t, t ≤ c.ops.length →
      ((c.ops.take t).foldl dfProcessOp ⟨⟨[], []⟩, fun _ => none, fun _ => 0, 0⟩).nextId = t ∧
      ((c.ops.take t).foldl dfProcessOp
          ⟨⟨[], []⟩, fun _ => none, fun _ => 0, 0⟩).graph.nodes.map
          (fun n => (n.id, n.name, n.qubits)) = dfNodesProj c t ∧
      ((c.ops.take t).foldl dfProcessOp
          ⟨⟨[], []⟩, fun _ => none, fun _ => 0, 0⟩).graph.edges = dfEdgesSpec c t ∧
      ((c.ops.take t).foldl dfProcessOp ⟨⟨[], []⟩, fun _ => none, fun _ => 0, 0⟩).lastOn =
        fun q => lastTouch c t q := by
  intro t
  induction t with
  | zero =>
    intro _
    refine ⟨rfl, by simp [dfNodesProj], rfl, ?_⟩
    funext q
    rfl
  | succ t ih =>
    intro ht
    have htl : t < c.ops.length := by omega
    obtain ⟨hι, hn, he, hl⟩ := ih (by omega)
    have hopAt : opAt c t ∈ c.ops := by
      rw [opAt, List.getD_eq_getElem c.ops _ htl]
      exact List.getElem_mem htl
    have htake : c.ops.take (t + 1) = c.ops.take t ++ [opAt c t] := by
      rw [List.take_succ, List.getElem?_eq_getElem htl]
      rw [opAt, List.getD_eq_getElem c.ops _ htl]
      rfl
    rw [htake, List.foldl_append, List.foldl_cons, List.foldl_nil]
    set st := (c.ops.take t).foldl dfProcessOp ⟨⟨[], []⟩, fun _ => none, fun _ => 0, 0⟩
    have hnd : (opAt c t).qargs.Nodup := hops _ hopAt
    simp only [dfProcessOp]
    refine ⟨by rw [hι], ?_, ?_, ?_⟩
    · rw [List.map_append, hn, hι]
      simp [dfNodesProj, List.range_succ]
    · rw [dfFold_edges _ _ _ _ _ _ hnd, he, hl, hι]
      simp [dfEdgesSpec]
    · rw [dfFold_lastOn, hl, hι]
      funext q
      simp only [lastTouch]

lemma lastTouch_some_iff (c : Circuit) :
    ∀ t q p, lastTouch c t q = some p ↔
      p < t ∧ q ∈ (opAt c p).qargs ∧ ∀ j, p < j → j < t → q ∉ (opAt c j).qargs := by
  intro t
  induction t with
  | zero => intro q p; simp [lastTouch]
  | succ t ih =>
    intro q p
    rw [lastTouch]
    by_cases hq : q ∈ (opAt c t).qargs
    · rw [if_pos hq]
      constructor
      · intro h
        obtain rfl : t = p := by injection h
        exact ⟨by omega, hq, fun j h1 h2 => by omega⟩
      · rintro ⟨hp, hmem, hbetween⟩
        rcases Nat.lt_or_ge p t with hlt | hge
        · exact absurd hq (hbetween t hlt (by omega))
        · have : p = t := by omega
          rw [this]
    · rw [if_neg hq, ih]
      constructor
      · rintro ⟨hp, hmem, hbetween⟩
        refine ⟨by omega, hmem, fun j h1 h2 => ?_⟩
        rcases Nat.lt_or_ge j t with hlt | hge
        · exact hbetween j h1 hlt
        · have : j = t := by omega
          rw [this]; exact hq
      · rintro ⟨hp, hmem, hbetween⟩
        have hpt : p ≠ t := fun h => hq (h ▸ hmem)
        exact ⟨by omega, hmem, fun j h1 h2 => hbetween j h1 (by omega)⟩

lemma lastTouch_none_iff (c : Circuit) :
    ∀ t q, lastTouch c t q = none ↔ ∀ j < t, q ∉ (opAt c j).qargs := by
  intro t
  induction t with
  | zero => intro q; simp [lastTouch]
  | succ t ih =>
    intro q
    rw [lastTouch]
    by_cases hq : q ∈ (opAt c t).qargs
    · rw [if_pos hq]
      constructor
      · intro h
        exact absurd h (by simp)
      · intro h
        exact absurd hq (h t (by omega))
    · rw [if_neg hq, ih]
      constructor
      · intro h j hj
        rcases Nat.lt_or_ge j t with hlt | hge
        · exact h j hlt
        · have : j = t := by omega
          rw [this]; exact hq
      · intro h j hj
        exact h j (by omega)

lemma mem_dfEdgesSpec (c : Circuit) :
    ∀ t e, e ∈ dfEdgesSpec c t ↔
      ∃ q, e.dst < t ∧ q ∈ (opAt c e.dst).qargs ∧
        lastTouch c e.dst q = some e.src ∧ e.qubit = q.idx := by
  intro t
  induction t with
  | zero => intro e; simp [dfEdgesSpec]
  | succ t ih =>
    intro e
    rw [dfEdgesSpec, List.mem_append, ih, List.mem_filterMap]
    constructor
    · rintro (⟨q, hd, hq, hlast, hqb⟩ | ⟨q, hq, hmap⟩)
      · exact ⟨q, by omega, hq, hlast, hqb⟩
      · rcases hlt : lastTouch c t q with _ | p
        · rw [hlt] at hmap; cases hmap
        · rw [hlt] at hmap
          simp only [Option.map_some', Option.some.injEq] at hmap
          subst hmap
          exact ⟨q, Nat.lt_succ_self t, hq, hlt, rfl⟩
    · rintro ⟨q, hd, hq, hlast, hqb⟩
      rcases Nat.lt_or_ge e.dst t with hlt | hge
      · exact Or.inl ⟨q, hlt, hq, hlast, hqb⟩
      · have hdt : e.dst = t := by omega
        refine Or.inr ⟨q, hdt ▸ hq, ?_⟩
        rw [hdt] at hlast
        rw [hlast]
        simp only [Option.map_some', Option.some.injEq]
        cases e
        simp only at hqb hdt
        rw [hqb, hdt]

lemma dfEdgesSpec_dst_lt (c : Circuit) (t : Nat) :
    ∀ e ∈ dfEdgesSpec c t, e.dst < t := by
  intro e he
  obtain ⟨q, hd, _⟩ := (mem_dfEdgesSpec c t e).mp he
  exact hd

lemma filter_beq_length_le_one {α β : Type} [DecidableEq β] :
    ∀ (l : List α) (f : α → β) (b : β), (l.map f).Nodup →
      (l.filter (fun x => decide (f x = b))).length ≤ 1 := by
  intro l
  induction l with
  | nil => intro f b _; simp
  | cons a t ih =>
    intro f b hnd
    obtain ⟨hat, hndt⟩ : (∀ x ∈ t, ¬ f x = f a) ∧ (t.map f).Nodup := by
      simpa using hnd
    rw [List.filter_cons]
    by_cases hfa : f a = b
    · rw [if_pos (by simpa using hfa)]
      have hnil : t.filter (fun x => decide (f x = b)) = [] := by
        rw [List.filter_eq_nil_iff]
        intro x hx
        simp only [decide_eq_true_eq]
        intro hfx
        exact hat x hx (hfx.trans hfa.symm)
      rw [hnil]
      simp
    · rw [if_neg (by simpa using hfa)]
      exact ih f b hndt

lemma mem_dfBlock (c : Circuit) (t : Nat) (l : List Qubit) (e : DFEdge)
    (he : e ∈ l.filterMap (fun q => (lastTouch c t q).map (fun p => DFEdge.mk p t q.idx))) :
    e.dst = t ∧ e.qubit ∈ l.map Qubit.idx ∧
      ∃ q ∈ l, e.qubit = q.idx ∧ lastTouch c t q = some e.src := by
  obtain ⟨q, hq, hmap⟩ := List.mem_filterMap.mp he
  rcases hlt : lastTouch c t q with _ | p
  · rw [hlt] at hmap; cases hmap
  · rw [hlt] at hmap
    simp only [Option.map_some', Option.mem_def, Option.some.injEq] at hmap
    subst hmap
    exact ⟨rfl, List.mem_map_of_mem Qubit.idx hq, q, hq, rfl, hlt⟩

lemma dfBlock_proj_nodup (c : Circuit) (t : Nat) (f : DFEdge → Nat) :
    ∀ l : List Qubit, (l.map Qubit.idx).Nodup →
      ((l.filterMap (fun q => (lastTouch c t q).map (fun p => DFEdge.mk p t q.idx))).map
        (fun e => (f e, e.qubit))).Nodup := by
  intro l
  induction l with
  | nil => intro _; simp
  | cons q l' ih =>
    intro hnd
    obtain ⟨hql, hndl⟩ : (∀ x ∈ l', ¬ x.idx = q.idx) ∧ (l'.map Qubit.idx).Nodup := by
      simpa using hnd
    rcases hlt : lastTouch c t q with _ | p
    · simp only [List.filterMap_cons, hlt, Option.map_none']
      exact ih hndl
    · simp only [List.filterMap_cons, hlt, Option.map_some']
      rw [List.map_cons, List.nodup_cons]
      refine ⟨?_, ih hndl⟩
      intro hmem
      obtain ⟨e, he, hproj⟩ := List.mem_map.mp hmem
      obtain ⟨_, hqmem, _⟩ := mem_dfBlock c t l' e he
      have heq : e.qubit = q.idx := by
        have := congrArg Prod.snd hproj
        simpa using this
      obtain ⟨x, hx, hxi⟩ := List.mem_map.mp hqmem
      exact hql x hx (by rw [hxi, heq])

lemma idx_nodup_of_sub (c : Circuit) (hIdx : (c.qubits.map Qubit.idx).Nodup)
    {l : List Qubit} (hnd : l.Nodup) (hsub : ∀ q ∈ l, q ∈ c.qubits) :
    (l.map Qubit.idx).Nodup := by
  refine List.Nodup.map_on ?_ hnd
  intro x hx y hy hxy
  exact List.inj_on_of_nodup_map hIdx (hsub x hx) (hsub y hy) hxy

lemma dfEdgesSpec_dstProj_nodup (c : Circuit)
    (hIdx : (c.qubits.map Qubit.idx).Nodup)
    (hops : ∀ op ∈ c.ops, op.qargs.Nodup ∧ ∀ q ∈ op.qargs, q ∈ c.qubits) :
    ∀ t, t ≤ c.ops.length →
      ((dfEdgesSpec c t).map (fun e => (e.dst, e.qubit))).Nodup := by
  intro t
  induction t with
  | zero => intro _; simp [dfEdgesSpec]
  | succ t ih =>
    intro ht
    have htl : t < c.ops.length := by omega
    have hopAt : opAt c t ∈ c.ops := by
      rw [opAt, List.getD_eq_getElem c.ops _ htl]
      exact List.getElem_mem htl
    have hqnd : ((opAt c t).qargs.map Qubit.idx).Nodup :=
      idx_nodup_of_sub c hIdx (hops _ hopAt).1 (hops _ hopAt).2
    rw [dfEdgesSpec, List.map_append, List.nodup_append]
    refine ⟨ih (by omega), dfBlock_proj_nodup c t (fun e => e.dst) _ hqnd, ?_⟩
    intro a ha hb
    obtain ⟨e, he, hproj⟩ := List.mem_map.mp ha
    obtain ⟨e2, he2, hproj2⟩ := List.mem_map.mp hb
    have h1 : a.1 = e.dst := by rw [← hproj]
    have h2 : a.1 = e2.dst := by rw [← hproj2]
    have hd1 : e.dst < t := dfEdgesSpec_dst_lt c t e he
    have hd2 : e2.dst = t := (mem_dfBlock c t _ e2 he2).1
    omega

lemma dfEdgesSpec_srcProj_nodup (c : Circuit)
    (hIdx : (c.qubits.map Qubit.idx).Nodup)
    (hops : ∀ op ∈ c.ops, op.qargs.Nodup ∧ ∀ q ∈ op.qargs, q ∈ c.qubits) :
    ∀ t, t ≤ c.ops.length →
      ((dfEdgesSpec c t).map (fun e => (e.src, e.qubit))).Nodup := by
  intro t
  induction t with
  | zero => intro _; simp [dfEdgesSpec]
  | succ t ih =>
    intro ht
    have htl : t < c.ops.length := by omega
    have hopAt : opAt c t ∈ c.ops := by
      rw [opAt, List.getD_eq_getElem c.ops _ htl]
      exact List.getElem_mem htl
    have hqnd : ((opAt c t).qargs.map Qubit.idx).Nodup :=
      idx_nodup_of_sub c hIdx (hops _ hopAt).1 (hops _ hopAt).2
    rw [dfEdgesSpec, List.map_append, List.nodup_append]
    refine ⟨ih (by omega), dfBlock_proj_nodup c t (fun e => e.src) _ hqnd, ?_⟩
    intro a ha hb
    obtain ⟨e, he, hproj⟩ := List.mem_map.mp ha
    obtain ⟨e2, he2, hproj2⟩ := List.mem_map.mp hb
    -- e is an earlier edge, e2 a block edge; equal (src, qubit) is impossible
    obtain ⟨q', hdlt, hq'mem, hlast', hqb'⟩ := (mem_dfEdgesSpec c t e).mp he
    obtain ⟨hd2, _, q, hqmem, hqb, hlast⟩ := mem_dfBlock c t _ e2 he2
    have hsrc : e.src = e2.src := by
      have := hproj.trans hproj2.symm
      simpa using congrArg Prod.fst this
    have hqub : e.qubit = e2.qubit := by
      have := hproj.trans hproj2.symm
      simpa using congrArg Prod.snd this
    have hopAtD : opAt c e.dst ∈ c.ops := by
      have hdl : e.dst < c.ops.length := by omega
      rw [opAt, List.getD_eq_getElem c.ops _ hdl]
      exact List.getElem_mem hdl
    have hq'circ : q' ∈ c.qubits := (hops _ hopAtD).2 q' hq'mem
    have hqcirc : q ∈ c.qubits := (hops _ hopAt).2 q hqmem
    have hqq : q = q' := by
      refine List.inj_on_of_nodup_map hIdx hqcirc hq'circ ?_
      rw [← hqb, ← hqub]
      exact hqb'
    subst hqq
    -- lastTouch c t q = some e2.src says no touch of q in (e2.src, t),
    -- but q is touched at e.dst with e2.src = e.src < e.dst < t
    obtain ⟨hp1, hp2, hbetween⟩ := (lastTouch_some_iff c t q e2.src).mp hlast
    have hsrclt : e.src < e.dst := ((lastTouch_some_iff c e.dst q e.src).mp hlast').1
    exact hbetween e.dst (by omega) hdlt hq'mem

/-- Claim C2 (amended): for every operation stream whose wires have
pairwise-distinct stored indices (e.g. a single register), the dataflow
graph has exactly one node per operation (node j carries operation j's
name and wire-index list), the edge u→v tagged w exists exactly when some
wire with stored index w is touched by operations u and v and by no
operation in between, and every node has at most one incoming and one
outgoing dataflow edge per wire tag.  (As stated over all streams the
claim fails: with two registers the stored tags collide, see
dataflow_edge_tag_not_simple_path.) -/
theorem build_graph_from_circuit_correct (c : Circuit)
    (hIdx : (c.qubits.map Qubit.idx).Nodup)
    (hops : ∀ op ∈ c.ops, op.qargs.Nodup ∧ ∀ q ∈ op.qargs, q ∈ c.qubits) :
    ((build_graph_from_circuit c).nodes.map (fun n => (n.id, n.name, n.qubits)) =
      dfNodesProj c c.ops.length)
    ∧ (∀ e : DFEdge, e ∈ (build_graph_from_circuit c).edges ↔
        ∃ q ∈ c.qubits, e.qubit = q.idx ∧ e.src < e.dst ∧ e.dst < c.ops.length ∧
          q ∈ (opAt c e.src).qargs ∧ q ∈ (opAt c e.dst).qargs ∧
          ∀ j, e.src < j → j < e.dst → q ∉ (opAt c j).qargs)
    ∧ (∀ v w : Nat,
        (((build_graph_from_circuit c).edges.filter
            (fun e => decide ((e.dst, e.qubit) = (v, w)))).length ≤ 1) ∧
        (((build_graph_from_circuit c).edges.filter
            (fun e => decide ((e.src, e.qubit) = (v, w)))).length ≤ 1)) := by
  obtain ⟨hι, hn, he, hl⟩ := dfFoldInvariant c (fun op hop => (hops op hop).1)
    c.ops.length (le_refl _)
  rw [List.take_length] at hn he
  have hbuild : (build_graph_from_circuit c).nodes.map (fun n => (n.id, n.name, n.qubits)) =
      dfNodesProj c c.ops.length := hn
  have hedges : (build_graph_from_circuit c).edges = dfEdgesSpec c c.ops.length := he
  refine ⟨hbuild, ?_, ?_⟩
  · intro e
    rw [hedges, mem_dfEdgesSpec]
    constructor
    · rintro ⟨q, hd, hq, hlast, hqb⟩
      obtain ⟨hsrc, hsmem, hbetween⟩ := (lastTouch_some_iff c e.dst q e.src).mp hlast
      have hopAtD : opAt c e.dst ∈ c.ops := by
        rw [opAt, List.getD_eq_getElem c.ops _ hd]
        exact List.getElem_mem hd
      exact ⟨q, (hops _ hopAtD).2 q hq, hqb, hsrc, hd, hsmem, hq, hbetween⟩
    · rintro ⟨q, _, hqb, hsrc, hd, hsmem, hq, hbetween⟩
      exact ⟨q, hd, hq, (lastTouch_some_iff c e.dst q e.src).mpr ⟨hsrc, hsmem, hbetween⟩, hqb⟩
  · intro v w
    constructor
    · rw [hedges]
      exact filter_beq_length_le_one (dfEdgesSpec c c.ops.length)
        (fun e => (e.dst, e.qubit)) (v, w)
        (dfEdgesSpec_dstProj_nodup c hIdx hops c.ops.length (le_refl _))
    · rw [hedges]
      exact filter_beq_length_le_one (dfEdgesSpec c c.ops.length)
        (fun e => (e.src, e.qubit)) (v, w)
        (dfEdgesSpec_srcProj_nodup c hIdx hops c.ops.length (le_refl _))

/-- A single-register two-wire circuit used as a concrete C2 check:
x q0; x q1; cx q0 q1; cx q0 q1. -/
def exSingleReg : Circuit :=
  ⟨[⟨0, 0⟩, ⟨0, 1⟩],
   [⟨"x", [⟨0, 0⟩]⟩, ⟨"x", [⟨0, 1⟩]⟩, ⟨"cx", [⟨0, 0⟩, ⟨0, 1⟩]⟩,
    ⟨"cx", [⟨0, 0⟩, ⟨0, 1⟩]⟩]⟩

/-- Concrete check for the amended C2 on a single-register circuit. -/
theorem build_graph_from_circuit_correct_witness :
    (build_graph_from_circuit exSingleReg).nodes.map (fun n => (n.id, n.name, n.qubits)) =
      dfNodesProj exSingleReg exSingleReg.ops.length ∧
    (DFEdge.mk 2 3 0) ∈ (build_graph_from_circuit exSingleReg).edges :=
  ⟨(build_graph_from_circuit_correct exSingleReg (by decide) (by decide)).1,
   ((build_graph_from_circuit_correct exSingleReg (by decide) (by decide)).2.1
      (DFEdge.mk 2 3 0)).mpr
     ⟨⟨0, 0⟩, by decide, by decide, by decide, by decide, by decide, by decide,
      by
        intro j h1 h2
        have h1' : 2 < j := h1
        have h2' : j < 3 := h2
        omega⟩⟩

/-- The nodes created by one operation's per-wire loop, starting at a
given fresh id. -/
def qNodesBlock (qmap : Qubit → Nat) (opName : String) (layer : Nat) :
    Nat → List Qubit → List INode
  | _, [] => []
  | base, q :: l =>
      ⟨base, "Q" ++ toString (qmap q), qmap q, opName, layer⟩ ::
        qNodesBlock qmap opName layer (base + 1) l

/-- The flow edges created by one operation's per-wire loop (reading the
evolving last-node map exactly as the sequential Python loop does). -/
def qFlowBlock (qmap : Qubit → Nat) :
    (Nat → Option Nat) → Nat → List Qubit → List IEdge
  | _, _, [] => []
  | lo, base, q :: l =>
      (match lo (qmap q) with
        | some p => [IEdge.mk p base EdgeType.flow 1 none]
        | none => []) ++
        qFlowBlock qmap (Function.update lo (qmap q) (some base)) (base + 1) l

/-- The last-node (or interaction-dictionary) map after one operation's
per-wire loop. -/
def qSlotBlock (qmap : Qubit → Nat) :
    (Nat → Option Nat) → Nat → List Qubit → (Nat → Option Nat)
  | lo, _, [] => lo
  | lo, base, q :: l =>
      qSlotBlock qmap (Function.update lo (qmap q) (some base)) (base + 1) l

/-- The depth map after one operation's per-wire loop. -/
def qDepthBlock (qmap : Qubit → Nat) (layer : Nat) :
    (Nat → Nat) → List Qubit → (Nat → Nat)
  | dp, [] => dp
  | dp, q :: l => qDepthBlock qmap layer (Function.update dp (qmap q) layer) l

/-- The inner per-wire foldl of build_interaction_graph, in closed form. -/
lemma iFold_eq (qmap : Qubit → Nat) (opName : String) (layer : Nat) :
    ∀ (l : List Qubit) (st : IOpState),
      l.foldl (iProcessQubit qmap opName layer) st =
        ⟨⟨st.graph.nodes ++ qNodesBlock qmap opName layer st.nextId l,
          st.graph.edges ++ qFlowBlock qmap st.lastOn st.nextId l⟩,
          qSlotBlock qmap st.lastOn st.nextId l,
          qDepthBlock qmap layer st.depth l,
          st.nextId + l.length,
          qSlotBlock qmap st.interDict st.nextId l⟩ := by
  intro l
  induction l with
  | nil =>
    intro st
    simp [qNodesBlock, qFlowBlock, qSlotBlock, qDepthBlock]
  | cons q l ih =>
    intro st
    rw [List.foldl_cons, ih]
    rcases st with ⟨⟨ns, es⟩, lo, dp, nid, dict⟩
    simp only [iProcessQubit, qNodesBlock, qFlowBlock, qSlotBlock, qDepthBlock]
    rcases hlo : lo (qmap q) with _ | p
    · simp only [hlo, IOpState.mk.injEq, IGraph.mk.injEq, List.append_assoc,
        List.singleton_append, List.nil_append, List.length_cons, and_true, true_and,
        eq_self_iff_true]
      omega
    · simp only [hlo, IOpState.mk.injEq, IGraph.mk.injEq, List.append_assoc,
        List.singleton_append, List.nil_append, List.length_cons, and_true, true_and,
        eq_self_iff_true]
      omega

lemma nodup_indexOf_getElem {L : List Nat} (h : L.Nodup) :
    ∀ i (hi : i < L.length), L.indexOf (L.get ⟨i, hi⟩) = i := by
  induction L with
  | nil => intro i hi; simp at hi
  | cons a t ih =>
    intro i hi
    obtain ⟨hat, hndt⟩ := List.nodup_cons.mp h
    cases i with
    | zero => simp [List.indexOf_cons_self]
    | succ j =>
      have hj : j < t.length := by simpa using hi
      have hmem : t.get ⟨j, hj⟩ ∈ t := List.get_mem t j hj
      have hne : a ≠ t.get ⟨j, hj⟩ := fun he => hat (he ▸ hmem)
      show List.indexOf (t.get ⟨j, hj⟩) (a :: t) = j + 1
      rw [List.indexOf_cons_ne t hne, ih hndt j hj]

lemma qSlotBlock_eq (qmap : Qubit → Nat) :
    ∀ (l : List Qubit) (lo : Nat → Option Nat) (base : Nat),
      (l.map qmap).Nodup →
      qSlotBlock qmap lo base l =
        fun w => if w ∈ l.map qmap then some (base + (l.map qmap).indexOf w)
          else lo w := by
  intro l
  induction l with
  | nil =>
    intro lo base _
    funext w
    simp [qSlotBlock]
  | cons q l ih =>
    intro lo base hnd
    obtain ⟨hql, hndl⟩ : qmap q ∉ l.map qmap ∧ (l.map qmap).Nodup := by
      rw [List.map_cons, List.nodup_cons] at hnd
      exact hnd
    rw [qSlotBlock, ih _ _ hndl]
    funext w
    by_cases hwl : w ∈ l.map qmap
    · rw [if_pos hwl, List.map_cons, if_pos (List.mem_cons_of_mem _ hwl)]
      have hwq : w ≠ qmap q := fun he => hql (he ▸ hwl)
      rw [List.indexOf_cons_ne _ (Ne.symm hwq)]
      congr 1
      omega
    · rw [if_neg hwl, List.map_cons]
      by_cases hwq : w = qmap q
      · subst hwq
        rw [if_pos (List.mem_cons_self _ _), List.indexOf_cons_self,
          Function.update_same]
        simp
      · rw [if_neg (by simp [hwq, hwl]), Function.update_noteq hwq]

/-- Cumulative node count: the first node id of operation t's block. -/
def iStart (c : Circuit) : Nat → Nat
  | 0 => 0
  | t + 1 => iStart c t + (if includedB (opAt c t) then (opAt c t).qargs.length else 0)

/-- The last interaction node on each global wire after t operations. -/
def wireSlot (c : Circuit) : Nat → Nat → Option Nat
  | 0 => fun _ => none
  | t + 1 =>
      if includedB (opAt c t) then
        qSlotBlock (qGlobal c) (wireSlot c t) (iStart c t) (opAt c t).qargs
      else wireSlot c t

/-- Projection of one operation's node block: id, global wire index,
operation name (layer and the derived label are omitted). -/
def qNodesProj (qmap : Qubit → Nat) (opName : String) :
    Nat → List Qubit → List (Nat × Nat × String)
  | _, [] => []
  | base, q :: l => (base, qmap q, opName) :: qNodesProj qmap opName (base + 1) l

/-- Projected interaction-graph node list after t operations. -/
def iNodesProjSpec (c : Circuit) : Nat → List (Nat × Nat × String)
  | 0 => []
  | t + 1 => iNodesProjSpec c t ++
      (if includedB (opAt c t) then
        qNodesProj (qGlobal c) (opAt c t).name (iStart c t) (opAt c t).qargs
      else [])

/-- The interaction star contributed by operation t (only meaningful for
included operations): an edge from each of the first m-1 block nodes to
the last block node, labelled with the operation name. -/
def iInterBlock (c : Circuit) (t : Nat) : List IEdge :=
  (List.range ((opAt c t).qargs.length - 1)).map (fun i =>
    IEdge.mk (iStart c t + i) (iStart c t + ((opAt c t).qargs.length - 1))
      EdgeType.interaction 2 (some (opAt c t).name))

/-- All interaction edges after t operations. -/
def iInterSpec (c : Circuit) : Nat → List IEdge
  | 0 => []
  | t + 1 => iInterSpec c t ++
      (if includedB (opAt c t) then iInterBlock c t else [])

/-- The full interaction-graph edge list after t operations. -/
def iEdgesSpec (c : Circuit) : Nat → List IEdge
  | 0 => []
  | t + 1 => iEdgesSpec c t ++
      (if includedB (opAt c t) then
        qFlowBlock (qGlobal c) (wireSlot c t) (iStart c t) (opAt c t).qargs ++
          iInterBlock c t
      else [])

lemma opAt_mem (c : Circuit) {t : Nat} (h : t < c.ops.length) : opAt c t ∈ c.ops := by
  rw [opAt, List.getD_eq_getElem c.ops _ h]
  exact List.getElem_mem h

lemma take_succ_opAt (c : Circuit) {t : Nat} (h : t < c.ops.length) :
    c.ops.take (t + 1) = c.ops.take t ++ [opAt c t] := by
  rw [List.take_succ, List.getElem?_eq_getElem h]
  rw [opAt, List.getD_eq_getElem c.ops _ h]
  rfl

lemma qGlobal_nodup (c : Circuit) (hq : c.qubits.Nodup) {l : List Qubit}
    (hnd : l.Nodup) (hsub : ∀ q ∈ l, q ∈ c.qubits) :
    (l.map (qGlobal c)).Nodup := by
  refine List.Nodup.map_on ?_ hnd
  intro x hx y hy hxy
  exact (List.indexOf_inj (hsub x hx) (hsub y hy)).mp hxy

lemma qNodesBlock_map_proj (qmap : Qubit → Nat) (opName : String) (layer : Nat) :
    ∀ (base : Nat) (l : List Qubit),
      (qNodesBlock qmap opName layer base l).map (fun n => (n.id, n.qubit_index, n.op_name)) =
        qNodesProj qmap opName base l := by
  intro base l
  induction l generalizing base with
  | nil => simp [qNodesBlock, qNodesProj]
  | cons q l ih => simp [qNodesBlock, qNodesProj, ih]

lemma qNodesBlock_length (qmap : Qubit → Nat) (opName : String) (layer : Nat) :
    ∀ (base : Nat) (l : List Qubit),
      (qNodesBlock qmap opName layer base l).length = l.length := by
  intro base l
  induction l generalizing base with
  | nil => simp [qNodesBlock]
  | cons q l ih => simp [qNodesBlock, ih]

lemma slot_getD_at_mem (qmap : Qubit → Nat) {l : List Qubit} (hnd : (l.map qmap).Nodup)
    (base : Nat) {i : Nat} (hi : i < l.length) :
    qSlotBlock qmap (fun _ => none) base l (qmap (l.get ⟨i, hi⟩)) = some (base + i) := by
  have hgm : (l.map qmap).get ⟨i, by simpa using hi⟩ = qmap (l.get ⟨i, hi⟩) := by
    simp
  have hmem : qmap (l.get ⟨i, hi⟩) ∈ l.map qmap := by
    rw [← hgm]
    exact List.get_mem _ _ _
  simp only [qSlotBlock_eq qmap l (fun _ => none) base hnd]
  rw [if_pos hmem, ← hgm, nodup_indexOf_getElem hnd i (by simpa using hi)]

lemma interE_eq (qmap : Qubit → Nat) (opName : String) (base : Nat)
    (l : List Qubit) (hnd : (l.map qmap).Nodup) (hlen : 1 ≤ l.length) :
    l.dropLast.map (fun cq =>
      (⟨(qSlotBlock qmap (fun _ => none) base l (qmap cq)).getD 0,
        (qSlotBlock qmap (fun _ => none) base l
          (qmap ((l.getLast?).getD ⟨0, 0⟩))).getD 0,
        EdgeType.interaction, 2, some opName⟩ : IEdge)) =
    (List.range (l.length - 1)).map (fun i =>
      IEdge.mk (base + i) (base + (l.length - 1)) EdgeType.interaction 2 (some opName)) := by
  have hne : l ≠ [] := by
    intro h
    rw [h] at hlen
    simp at hlen
  have hlast : (l.getLast?).getD ⟨0, 0⟩ = l.get ⟨l.length - 1, by omega⟩ := by
    rw [List.getLast?_eq_getLast l hne]
    simp [List.getLast_eq_getElem]
  have htgt : (qSlotBlock qmap (fun _ => none) base l
      (qmap ((l.getLast?).getD ⟨0, 0⟩))).getD 0 = base + (l.length - 1) := by
    rw [hlast, slot_getD_at_mem qmap hnd base (by omega)]
    rfl
  apply List.ext_getElem
  · simp
  · intro i h1 h2
    have hi : i < l.length - 1 := by simpa using h2
    have hil : i < l.length := by omega
    rw [List.getElem_map, List.getElem_map, List.getElem_range]
    rw [List.getElem_dropLast]
    have hctl : (qSlotBlock qmap (fun _ => none) base l (qmap (l[i]))).getD 0 = base + i := by
      rw [show (l[i] : Qubit) = l.get ⟨i, hil⟩ from rfl,
        slot_getD_at_mem qmap hnd base hil]
      rfl
    simp only [IEdge.mk.injEq]
    exact ⟨hctl, htgt, trivial, trivial, trivial⟩

/-- The interaction builder's state after t operations, described by the
spec-level recursions. -/
lemma iFoldInvariant (c : Circuit) (hq : c.qubits.Nodup)
    (hops : ∀ op ∈ c.ops, op.qargs.Nodup ∧ ∀ q ∈ op.qargs, q ∈ c.qubits) :
    ∀ t, t ≤ c.ops.length →
      ((c.ops.take t).foldl (iProcessOp (qGlobal c))
          ⟨⟨[], []⟩, fun _ => none, fun _ => 0, 0⟩).nextId = iStart c t ∧
      ((c.ops.take t).foldl (iProcessOp (qGlobal c))
          ⟨⟨[], []⟩, fun _ => none, fun _ => 0, 0⟩).graph.nodes.map
          (fun n => (n.id, n.qubit_index, n.op_name)) = iNodesProjSpec c t ∧
      ((c.ops.take t).foldl (iProcessOp (qGlobal c))
          ⟨⟨[], []⟩, fun _ => none, fun _ => 0, 0⟩).graph.edges = iEdgesSpec c t ∧
      ((c.ops.take t).foldl (iProcessOp (qGlobal c))
          ⟨⟨[], []⟩, fun _ => none, fun _ => 0, 0⟩).lastOn = wireSlot c t := by
  intro t
  induction t with
  | zero =>
    intro _
    refine ⟨rfl, by simp [iNodesProjSpec], rfl, ?_⟩
    funext w
    rfl
  | succ t ih =>
    intro ht
    have htl : t < c.ops.length := by omega
    obtain ⟨hι, hn, he, hl⟩ := ih (by omega)
    rw [take_succ_opAt c htl, List.foldl_append, List.foldl_cons, List.foldl_nil]
    set st := (c.ops.take t).foldl (iProcessOp (qGlobal c))
      ⟨⟨[], []⟩, fun _ => none, fun _ => 0, 0⟩ with hst
    by_cases hinc : includedB (opAt c t)
    · have hnd : ((opAt c t).qargs.map (qGlobal c)).Nodup :=
        qGlobal_nodup c hq (hops _ (opAt_mem c htl)).1 (hops _ (opAt_mem c htl)).2
      have hlen : 1 ≤ (opAt c t).qargs.length := by
        have : 2 ≤ (opAt c t).qargs.length := by
          have hinc' := hinc
          rw [includedB, Bool.and_eq_true] at hinc'
          exact of_decide_eq_true hinc'.1
        omega
      rw [iProcessOp, if_pos hinc]
      simp only [iFold_eq]
      refine ⟨?_, ?_, ?_, ?_⟩
      · simp [hι, iStart, hinc]
      · rw [List.map_append, hn, qNodesBlock_map_proj, hι, iNodesProjSpec, if_pos hinc]
      · rw [he, hl, hι, iEdgesSpec, if_pos hinc, List.append_assoc]
        congr 2
        exact interE_eq (qGlobal c) (opAt c t).name (iStart c t) (opAt c t).qargs hnd hlen
      · rw [hl, hι, wireSlot, if_pos hinc]
    · have hinc' : includedB (opAt c t) = false := by simpa using hinc
      rw [iProcessOp, if_neg hinc]
      refine ⟨?_, ?_, ?_, ?_⟩
      · simp [hι, iStart, hinc']
      · rw [hn, iNodesProjSpec, if_neg hinc, List.append_nil]
      · rw [he, iEdgesSpec, if_neg hinc, List.append_nil]
      · rw [hl, wireSlot, if_neg hinc]

lemma qSlotBlock_apply (qmap : Qubit → Nat) (l : List Qubit) (lo : Nat → Option Nat)
    (base : Nat) (hnd : (l.map qmap).Nodup) (w : Nat) :
    qSlotBlock qmap lo base l w =
      if w ∈ l.map qmap then some (base + (l.map qmap).indexOf w) else lo w := by
  rw [qSlotBlock_eq qmap l lo base hnd]

lemma iStart_le_succ (c : Circuit) (t : Nat) : iStart c t ≤ iStart c (t + 1) := by
  rw [iStart]
  omega

lemma wireSlot_lt (c : Circuit) (hq : c.qubits.Nodup)
    (hops : ∀ op ∈ c.ops, op.qargs.Nodup ∧ ∀ q ∈ op.qargs, q ∈ c.qubits) :
    ∀ t, t ≤ c.ops.length → ∀ w p, wireSlot c t w = some p → p < iStart c t := by
  intro t
  induction t with
  | zero => intro _ w p h; cases h
  | succ t ih =>
    intro ht w p h
    have htl : t < c.ops.length := by omega
    by_cases hinc : includedB (opAt c t)
    · rw [wireSlot, if_pos hinc] at h
      have hnd : ((opAt c t).qargs.map (qGlobal c)).Nodup :=
        qGlobal_nodup c hq (hops _ (opAt_mem c htl)).1 (hops _ (opAt_mem c htl)).2
      rw [qSlotBlock_apply _ _ _ _ hnd] at h
      by_cases hw : w ∈ (opAt c t).qargs.map (qGlobal c)
      · rw [if_pos hw] at h
        injection h with h
        have : List.indexOf w ((opAt c t).qargs.map (qGlobal c)) <
            (opAt c t).qargs.length := by
          have := List.indexOf_lt_length.mpr hw
          simpa using this
        rw [iStart, if_pos hinc]
        omega
      · rw [if_neg hw] at h
        have := ih (by omega) w p h
        have hle := iStart_le_succ c t
        omega
    · rw [wireSlot, if_neg hinc] at h
      have := ih (by omega) w p h
      have hle := iStart_le_succ c t
      omega

lemma wireSlot_inj (c : Circuit) (hq : c.qubits.Nodup)
    (hops : ∀ op ∈ c.ops, op.qargs.Nodup ∧ ∀ q ∈ op.qargs, q ∈ c.qubits) :
    ∀ t, t ≤ c.ops.length → ∀ w w' p,
      wireSlot c t w = some p → wireSlot c t w' = some p → w = w' := by
  intro t
  induction t with
  | zero => intro _ w w' p h; cases h
  | succ t ih =>
    intro ht w w' p h h'
    have htl : t < c.ops.length := by omega
    by_cases hinc : includedB (opAt c t)
    · rw [wireSlot, if_pos hinc] at h h'
      have hnd : ((opAt c t).qargs.map (qGlobal c)).Nodup :=
        qGlobal_nodup c hq (hops _ (opAt_mem c htl)).1 (hops _ (opAt_mem c htl)).2
      rw [qSlotBlock_apply _ _ _ _ hnd] at h h'
      by_cases hw : w ∈ (opAt c t).qargs.map (qGlobal c) <;>
        by_cases hw' : w' ∈ (opAt c t).qargs.map (qGlobal c)
      · rw [if_pos hw] at h
        rw [if_pos hw'] at h'
        injection h with h
        injection h' with h'
        have : List.indexOf w ((opAt c t).qargs.map (qGlobal c)) =
            List.indexOf w' ((opAt c t).qargs.map (qGlobal c)) := by omega
        exact (List.indexOf_inj hw hw').mp this
      · rw [if_pos hw] at h
        rw [if_neg hw'] at h'
        injection h with h
        have := wireSlot_lt c hq hops t (by omega) w' p h'
        omega
      · rw [if_neg hw] at h
        rw [if_pos hw'] at h'
        injection h' with h'
        have := wireSlot_lt c hq hops t (by omega) w p h
        omega
      · rw [if_neg hw] at h
        rw [if_neg hw'] at h'
        exact ih (by omega) w w' p h h'
    · rw [wireSlot, if_neg hinc] at h h'
      exact ih (by omega) w w' p h h'

lemma qFlowBlock_etype (qmap : Qubit → Nat) :
    ∀ (l : List Qubit) (lo : Nat → Option Nat) (base : Nat),
      ∀ e ∈ qFlowBlock qmap lo base l, e.etype = EdgeType.flow := by
  intro l
  induction l with
  | nil => intro lo base e he; simp [qFlowBlock] at he
  | cons q l ih =>
    intro lo base e he
    rw [qFlowBlock] at he
    rcases hlo : lo (qmap q) with _ | p <;> rw [hlo] at he
    · simp only [List.nil_append] at he
      exact ih _ _ e he
    · rcases List.mem_append.mp he with hh | ht
      · rw [List.mem_singleton] at hh
        rw [hh]
      · exact ih _ _ e ht

lemma qFlowBlock_dst_range (qmap : Qubit → Nat) :
    ∀ (l : List Qubit) (lo : Nat → Option Nat) (base : Nat),
      ∀ e ∈ qFlowBlock qmap lo base l, base ≤ e.dst ∧ e.dst < base + l.length := by
  intro l
  induction l with
  | nil => intro lo base e he; simp [qFlowBlock] at he
  | cons q l ih =>
    intro lo base e he
    rw [qFlowBlock] at he
    rcases hlo : lo (qmap q) with _ | p <;> rw [hlo] at he
    · simp only [List.nil_append] at he
      have := ih _ _ e he
      simp only [List.length_cons]
      omega
    · rcases List.mem_append.mp he with hh | ht
      · rw [List.mem_singleton] at hh
        rw [hh]
        exact ⟨le_refl base, Nat.lt_add_of_pos_right (Nat.succ_pos l.length)⟩
      · have := ih _ _ e ht
        simp only [List.length_cons]
        omega

lemma qFlowBlock_src_origin (qmap : Qubit → Nat) :
    ∀ (l : List Qubit) (lo : Nat → Option Nat) (base : Nat), (l.map qmap).Nodup →
      ∀ e ∈ qFlowBlock qmap lo base l, ∃ w ∈ l.map qmap, lo w = some e.src := by
  intro l
  induction l with
  | nil => intro lo base _ e he; simp [qFlowBlock] at he
  | cons q l ih =>
    intro lo base hnd e he
    obtain ⟨hql, hndl⟩ : qmap q ∉ l.map qmap ∧ (l.map qmap).Nodup := by
      rw [List.map_cons, List.nodup_cons] at hnd
      exact hnd
    rw [qFlowBlock] at he
    rcases hlo : lo (qmap q) with _ | p <;> rw [hlo] at he
    · simp only [List.nil_append] at he
      obtain ⟨w, hw, hlow⟩ := ih _ _ hndl e he
      have hwq : w ≠ qmap q := fun hwe => hql (hwe ▸ hw)
      rw [Function.update_noteq hwq] at hlow
      exact ⟨w, List.mem_cons_of_mem _ hw, hlow⟩
    · rcases List.mem_append.mp he with hh | ht
      · rw [List.mem_singleton] at hh
        rw [hh]
        exact ⟨qmap q, List.mem_cons_self _ _, hlo⟩
      · obtain ⟨w, hw, hlow⟩ := ih _ _ hndl e ht
        have hwq : w ≠ qmap q := fun hwe => hql (hwe ▸ hw)
        rw [Function.update_noteq hwq] at hlow
        exact ⟨w, List.mem_cons_of_mem _ hw, hlow⟩

lemma qFlowBlock_dst_nodup (qmap : Qubit → Nat) :
    ∀ (l : List Qubit) (lo : Nat → Option Nat) (base : Nat),
      ((qFlowBlock qmap lo base l).map (fun e => e.dst)).Nodup := by
  intro l
  induction l with
  | nil => intro lo base; simp [qFlowBlock]
  | cons q l ih =>
    intro lo base
    rw [qFlowBlock]
    rcases hlo : lo (qmap q) with _ | p
    · simp only [List.nil_append]
      exact ih _ _
    · rw [List.singleton_append, List.map_cons, List.nodup_cons]
      refine ⟨?_, ih _ _⟩
      intro hmem
      obtain ⟨e, he, hdst⟩ := List.mem_map.mp hmem
      have hdst' : e.dst = base := hdst
      have := qFlowBlock_dst_range qmap l _ (base + 1) e he
      omega

lemma qFlowBlock_src_nodup (qmap : Qubit → Nat) :
    ∀ (l : List Qubit) (lo : Nat → Option Nat) (base : Nat), (l.map qmap).Nodup →
      (∀ w p, lo w = some p → p < base) →
      (∀ w w' p, lo w = some p → lo w' = some p → w = w') →
      ((qFlowBlock qmap lo base l).map (fun e => e.src)).Nodup := by
  intro l
  induction l with
  | nil => intro lo base _ _ _; simp [qFlowBlock]
  | cons q l ih =>
    intro lo base hnd hbound hinj
    obtain ⟨hql, hndl⟩ : qmap q ∉ l.map qmap ∧ (l.map qmap).Nodup := by
      rw [List.map_cons, List.nodup_cons] at hnd
      exact hnd
    have hbound' : ∀ w p, Function.update lo (qmap q) (some base) w = some p → p < base + 1 := by
      intro w p hw
      by_cases hwq : w = qmap q
      · subst hwq
        rw [Function.update_same] at hw
        injection hw with hw
        omega
      · rw [Function.update_noteq hwq] at hw
        have := hbound w p hw
        omega
    have hinj' : ∀ w w' p, Function.update lo (qmap q) (some base) w = some p →
        Function.update lo (qmap q) (some base) w' = some p → w = w' := by
      intro w w' p hw hw'
      by_cases hwq : w = qmap q <;> by_cases hwq' : w' = qmap q
      · rw [hwq, hwq']
      · subst hwq
        rw [Function.update_same] at hw
        injection hw with hw
        rw [Function.update_noteq hwq'] at hw'
        have := hbound w' p hw'
        omega
      · subst hwq'
        rw [Function.update_same] at hw'
        injection hw' with hw'
        rw [Function.update_noteq hwq] at hw
        have := hbound w p hw
        omega
      · rw [Function.update_noteq hwq] at hw
        rw [Function.update_noteq hwq'] at hw'
        exact hinj w w' p hw hw'
    rw [qFlowBlock]
    rcases hlo : lo (qmap q) with _ | p
    · simp only [List.nil_append]
      exact ih _ _ hndl hbound' hinj'
    · rw [List.singleton_append, List.map_cons, List.nodup_cons]
      refine ⟨?_, ih _ _ hndl hbound' hinj'⟩
      intro hmem
      obtain ⟨e, he, hsrc⟩ := List.mem_map.mp hmem
      obtain ⟨w, hw, hlow⟩ := qFlowBlock_src_origin qmap l _ (base + 1) hndl e he
      have hwq : w ≠ qmap q := fun hwe => hql (hwe ▸ hw)
      rw [Function.update_noteq hwq] at hlow
      rw [hsrc] at hlow
      exact hwq (hinj w (qmap q) p hlow hlo)

/-- Boolean test for flow edges ('type' == 'flow'). -/
def isFlowB (e : IEdge) : Bool := decide (e.etype = EdgeType.flow)

/-- Boolean test for interaction edges ('type' == 'interaction'). -/
def isInterB (e : IEdge) : Bool := decide (e.etype = EdgeType.interaction)

lemma includedB_two_le {op : Oper} (h : includedB op = true) : 2 ≤ op.qargs.length := by
  rw [includedB, Bool.and_eq_true] at h
  exact of_decide_eq_true h.1

lemma mem_iInterBlock {c : Circuit} {t : Nat} {e : IEdge} :
    e ∈ iInterBlock c t ↔ ∃ i, i < (opAt c t).qargs.length - 1 ∧
      e = IEdge.mk (iStart c t + i) (iStart c t + ((opAt c t).qargs.length - 1))
        EdgeType.interaction 2 (some (opAt c t).name) := by
  simp only [iInterBlock, List.mem_map, List.mem_range]
  constructor
  · rintro ⟨i, hi, rfl⟩
    exact ⟨i, hi, rfl⟩
  · rintro ⟨i, hi, rfl⟩
    exact ⟨i, hi, rfl⟩

lemma iEdgesSpec_shape (c : Circuit) (hq : c.qubits.Nodup)
    (hops : ∀ op ∈ c.ops, op.qargs.Nodup ∧ ∀ q ∈ op.qargs, q ∈ c.qubits) :
    ∀ t, t ≤ c.ops.length → ∀ e ∈ iEdgesSpec c t,
      e.src < e.dst ∧ e.dst < iStart c t := by
  intro t
  induction t with
  | zero => intro _ e he; simp [iEdgesSpec] at he
  | succ t ih =>
    intro ht e he
    have htl : t < c.ops.length := by omega
    have hmono := iStart_le_succ c t
    rw [iEdgesSpec] at he
    by_cases hinc : includedB (opAt c t)
    · rw [if_pos hinc] at he
      have hnd : ((opAt c t).qargs.map (qGlobal c)).Nodup :=
        qGlobal_nodup c hq (hops _ (opAt_mem c htl)).1 (hops _ (opAt_mem c htl)).2
      have hm2 : 2 ≤ (opAt c t).qargs.length := includedB_two_le hinc
      have hstart : iStart c (t + 1) = iStart c t + (opAt c t).qargs.length := by
        rw [iStart, if_pos hinc]
      rcases List.mem_append.mp he with hold | hnew
      · have := ih (by omega) e hold
        omega
      · rcases List.mem_append.mp hnew with hflow | hinter
        · obtain ⟨hdge, hdlt⟩ := qFlowBlock_dst_range _ _ _ _ e hflow
          obtain ⟨w, _, hw⟩ := qFlowBlock_src_origin _ _ _ _ hnd e hflow
          have hsrc := wireSlot_lt c hq hops t (by omega) w e.src hw
          omega
        · obtain ⟨i, hi, rfl⟩ := mem_iInterBlock.mp hinter
          refine ⟨?_, ?_⟩
          · show iStart c t + i < iStart c t + ((opAt c t).qargs.length - 1)
            omega
          · show iStart c t + ((opAt c t).qargs.length - 1) < iStart c (t + 1)
            omega
    · rw [if_neg hinc, List.append_nil] at he
      have := ih (by omega) e he
      omega

lemma iEdgesSpec_filter_flow_step (c : Circuit) {t : Nat} (htl : t < c.ops.length)
    (hinc : includedB (opAt c t) = true) :
    (iEdgesSpec c (t + 1)).filter isFlowB =
      (iEdgesSpec c t).filter isFlowB ++
        qFlowBlock (qGlobal c) (wireSlot c t) (iStart c t) (opAt c t).qargs := by
  rw [iEdgesSpec, if_pos hinc, List.filter_append, List.filter_append]
  have hfl : (qFlowBlock (qGlobal c) (wireSlot c t) (iStart c t) (opAt c t).qargs).filter
      isFlowB = qFlowBlock (qGlobal c) (wireSlot c t) (iStart c t) (opAt c t).qargs := by
    rw [List.filter_eq_self]
    intro e he
    rw [isFlowB, qFlowBlock_etype _ _ _ _ e he]
    exact decide_eq_true rfl
  have hint : (iInterBlock c t).filter isFlowB = [] := by
    rw [List.filter_eq_nil_iff]
    intro e he
    obtain ⟨i, _, rfl⟩ := mem_iInterBlock.mp he
    rw [isFlowB]
    simp
  rw [hfl, hint, List.append_nil]

lemma iEdgesSpec_flow_dst_nodup (c : Circuit) (hq : c.qubits.Nodup)
    (hops : ∀ op ∈ c.ops, op.qargs.Nodup ∧ ∀ q ∈ op.qargs, q ∈ c.qubits) :
    ∀ t, t ≤ c.ops.length →
      (((iEdgesSpec c t).filter isFlowB).map (fun e => e.dst)).Nodup := by
  intro t
  induction t with
  | zero => intro _; simp [iEdgesSpec]
  | succ t ih =>
    intro ht
    have htl : t < c.ops.length := by omega
    by_cases hinc : includedB (opAt c t)
    · rw [iEdgesSpec_filter_flow_step c htl hinc, List.map_append, List.nodup_append]
      refine ⟨ih (by omega), qFlowBlock_dst_nodup _ _ _ _, ?_⟩
      intro a ha hb
      obtain ⟨e, he, hproj⟩ := List.mem_map.mp ha
      obtain ⟨e2, he2, hproj2⟩ := List.mem_map.mp hb
      have hd1 : e.dst < iStart c t :=
        (iEdgesSpec_shape c hq hops t (by omega) e (List.mem_of_mem_filter he)).2
      have hd2 := (qFlowBlock_dst_range _ _ _ _ e2 he2).1
      omega
    · rw [iEdgesSpec, if_neg hinc, List.append_nil]
      exact ih (by omega)

lemma iEdgesSpec_flow_src_nodup (c : Circuit) (hq : c.qubits.Nodup)
    (hops : ∀ op ∈ c.ops, op.qargs.Nodup ∧ ∀ q ∈ op.qargs, q ∈ c.qubits) :
    ∀ t, t ≤ c.ops.length →
      (((iEdgesSpec c t).filter isFlowB).map (fun e => e.src)).Nodup ∧
      ∀ p, p ∈ ((iEdgesSpec c t).filter isFlowB).map (fun e => e.src) →
        ∀ w, wireSlot c t w ≠ some p := by
  intro t
  induction t with
  | zero =>
    intro _
    refine ⟨by simp [iEdgesSpec], ?_⟩
    intro p hp
    simp [iEdgesSpec] at hp
  | succ t ih =>
    intro ht
    have htl : t < c.ops.length := by omega
    obtain ⟨ihnd, ihslot⟩ := ih (by omega)
    by_cases hinc : includedB (opAt c t)
    · have hnd : ((opAt c t).qargs.map (qGlobal c)).Nodup :=
        qGlobal_nodup c hq (hops _ (opAt_mem c htl)).1 (hops _ (opAt_mem c htl)).2
      have hbound : ∀ w p, wireSlot c t w = some p → p < iStart c t :=
        fun w p h => wireSlot_lt c hq hops t (by omega) w p h
      have hinj : ∀ w w' p, wireSlot c t w = some p → wireSlot c t w' = some p → w = w' :=
        fun w w' p h h' => wireSlot_inj c hq hops t (by omega) w w' p h h'
      rw [iEdgesSpec_filter_flow_step c htl hinc, List.map_append]
      have hblock : ∀ p, p ∈ (qFlowBlock (qGlobal c) (wireSlot c t) (iStart c t)
          (opAt c t).qargs).map (fun e => e.src) →
          ∃ w ∈ (opAt c t).qargs.map (qGlobal c), wireSlot c t w = some p := by
        intro p hp
        obtain ⟨e, he, hsrc⟩ := List.mem_map.mp hp
        obtain ⟨w, hw, hlow⟩ := qFlowBlock_src_origin _ _ _ _ hnd e he
        exact ⟨w, hw, hsrc ▸ hlow⟩
      constructor
      · rw [List.nodup_append]
        refine ⟨ihnd, qFlowBlock_src_nodup _ _ _ _ hnd hbound hinj, ?_⟩
        intro p hpold hpnew
        obtain ⟨w, _, hw⟩ := hblock p hpnew
        exact ihslot p hpold w hw
      · intro p hp w hw
        have hslot : wireSlot c (t + 1) w = some p := hw
        rw [wireSlot, if_pos hinc,
          qSlotBlock_apply _ _ _ _ hnd] at hslot
        rcases List.mem_append.mp hp with hpold | hpnew
        · by_cases hwm : w ∈ (opAt c t).qargs.map (qGlobal c)
          · rw [if_pos hwm] at hslot
            injection hslot with hslot
            -- old sources are strictly below iStart c t, fresh slots are not
            obtain ⟨e, he, hsrc⟩ := List.mem_map.mp hpold
            have hlt : e.src < e.dst ∧ e.dst < iStart c t :=
              iEdgesSpec_shape c hq hops t (by omega) e (List.mem_of_mem_filter he)
            omega
          · rw [if_neg hwm] at hslot
            exact ihslot p hpold w hslot
        · obtain ⟨w0, hw0m, hw0⟩ := hblock p hpnew
          by_cases hwm : w ∈ (opAt c t).qargs.map (qGlobal c)
          · rw [if_pos hwm] at hslot
            injection hslot with hslot
            have := hbound w0 p hw0
            omega
          · rw [if_neg hwm] at hslot
            exact hwm (hinj w w0 p hslot hw0 ▸ hw0m)
    · rw [iEdgesSpec, if_neg hinc, List.append_nil]
      refine ⟨ihnd, ?_⟩
      intro p hp w hw
      rw [wireSlot, if_neg hinc] at hw
      exact ihslot p hp w hw

lemma nodup_pair_of_nodup_snd {α : Type} (f g : α → Nat) :
    ∀ l : List α, ((l.map g).Nodup) → (l.map (fun x => (f x, g x))).Nodup := by
  intro l
  induction l with
  | nil => intro _; simp
  | cons a t ih =>
    intro hnd
    obtain ⟨hat, hndt⟩ : (∀ x ∈ t, ¬ g x = g a) ∧ (t.map g).Nodup := by
      simpa using hnd
    rw [List.map_cons, List.nodup_cons]
    refine ⟨?_, ih hndt⟩
    intro hmem
    obtain ⟨x, hx, hpair⟩ := List.mem_map.mp hmem
    have := congrArg Prod.snd hpair
    exact hat x hx (by simpa using this)

lemma iInterBlock_pair_nodup (c : Circuit) (t : Nat) :
    ((iInterBlock c t).map (fun e => (e.src, e.dst))).Nodup := by
  rw [iInterBlock, List.map_map]
  refine List.Nodup.map ?_ (List.nodup_range _)
  intro i j hij
  simp only [Function.comp_apply, Prod.mk.injEq] at hij
  omega

lemma iEdgesSpec_pair_nodup (c : Circuit) (hq : c.qubits.Nodup)
    (hops : ∀ op ∈ c.ops, op.qargs.Nodup ∧ ∀ q ∈ op.qargs, q ∈ c.qubits) :
    ∀ t, t ≤ c.ops.length →
      ((iEdgesSpec c t).map (fun e => (e.src, e.dst))).Nodup := by
  intro t
  induction t with
  | zero => intro _; simp [iEdgesSpec]
  | succ t ih =>
    intro ht
    have htl : t < c.ops.length := by omega
    by_cases hinc : includedB (opAt c t)
    · have hnd : ((opAt c t).qargs.map (qGlobal c)).Nodup :=
        qGlobal_nodup c hq (hops _ (opAt_mem c htl)).1 (hops _ (opAt_mem c htl)).2
      rw [iEdgesSpec, if_pos hinc, List.map_append, List.nodup_append]
      refine ⟨ih (by omega), ?_, ?_⟩
      · rw [List.map_append, List.nodup_append]
        refine ⟨nodup_pair_of_nodup_snd _ _ _ (qFlowBlock_dst_nodup _ _ _ _),
          iInterBlock_pair_nodup c t, ?_⟩
        intro a ha hb
        obtain ⟨e, he, hproj⟩ := List.mem_map.mp ha
        obtain ⟨e2, he2, hproj2⟩ := List.mem_map.mp hb
        obtain ⟨w, _, hw⟩ := qFlowBlock_src_origin _ _ _ _ hnd e he
        have hsrclt : e.src < iStart c t := wireSlot_lt c hq hops t (by omega) w e.src hw
        obtain ⟨i, hi, rfl⟩ := mem_iInterBlock.mp he2
        have h1 : a.1 = e.src := by rw [← hproj]
        have h2 : a.1 = iStart c t + i := by rw [← hproj2]
        omega
      · intro a ha hb
        obtain ⟨e, he, hproj⟩ := List.mem_map.mp ha
        have hdold : e.dst < iStart c t :=
          (iEdgesSpec_shape c hq hops t (by omega) e he).2
        have h1 : a.2 = e.dst := by rw [← hproj]
        rw [List.map_append] at hb
        rcases List.mem_append.mp hb with hflow | hinter
        · obtain ⟨e2, he2, hproj2⟩ := List.mem_map.mp hflow
          have := (qFlowBlock_dst_range _ _ _ _ e2 he2).1
          have h2 : a.2 = e2.dst := by rw [← hproj2]
          omega
        · obtain ⟨e2, he2, hproj2⟩ := List.mem_map.mp hinter
          obtain ⟨i, hi, rfl⟩ := mem_iInterBlock.mp he2
          have h2 : a.2 = iStart c t + ((opAt c t).qargs.length - 1) := by rw [← hproj2]
          omega
    · rw [iEdgesSpec, if_neg hinc, List.append_nil]
      exact ih (by omega)

lemma iEdgesSpec_filter_inter (c : Circuit) :
    ∀ t, (iEdgesSpec c t).filter isInterB = iInterSpec c t := by
  intro t
  induction t with
  | zero => simp [iEdgesSpec, iInterSpec]
  | succ t ih =>
    rw [iEdgesSpec, iInterSpec, List.filter_append, ih]
    congr 1
    by_cases hinc : includedB (opAt c t)
    · rw [if_pos hinc, if_pos hinc, List.filter_append]
      have hfl : (qFlowBlock (qGlobal c) (wireSlot c t) (iStart c t) (opAt c t).qargs).filter
          isInterB = [] := by
        rw [List.filter_eq_nil_iff]
        intro e he
        rw [isInterB, qFlowBlock_etype _ _ _ _ e he]
        simp
      have hint : (iInterBlock c t).filter isInterB = iInterBlock c t := by
        rw [List.filter_eq_self]
        intro e he
        obtain ⟨i, _, rfl⟩ := mem_iInterBlock.mp he
        rw [isInterB]
        exact decide_eq_true rfl
      rw [hfl, hint, List.nil_append]
    · rw [if_neg hinc, if_neg hinc]
      rfl

lemma qNodesProj_length (qmap : Qubit → Nat) (opName : String) :
    ∀ (base : Nat) (l : List Qubit), (qNodesProj qmap opName base l).length = l.length := by
  intro base l
  induction l generalizing base with
  | nil => simp [qNodesProj]
  | cons q l ih => simp [qNodesProj, ih]

lemma iNodesProjSpec_length (c : Circuit) :
    ∀ t, (iNodesProjSpec c t).length = iStart c t := by
  intro t
  induction t with
  | zero => simp [iNodesProjSpec, iStart]
  | succ t ih =>
    rw [iNodesProjSpec, iStart, List.length_append, ih]
    by_cases hinc : includedB (opAt c t)
    · rw [if_pos hinc, if_pos hinc, qNodesProj_length]
    · rw [if_neg hinc, if_neg hinc]
      rfl

/-- Claim C3: for every operation stream (with well-formed wire lists),
each m-wire (m >= 2) operation that is not barrier/snapshot/delay
contributes exactly m nodes and exactly m-1 interaction edges forming a
star from every non-last wire's node to the last wire's node (this is the
content of the iNodesProjSpec/iInterSpec recursions: an included
operation appends a block of m fresh nodes in wire order and the star
edges from the first m-1 block nodes to the last; excluded and
single-wire operations append nothing), and every node has at most one
incoming and at most one outgoing flow edge. -/
theorem build_interaction_graph_correct (c : Circuit) (hq : c.qubits.Nodup)
    (hops : ∀ op ∈ c.ops, op.qargs.Nodup ∧ ∀ q ∈ op.qargs, q ∈ c.qubits) :
    ((build_interaction_graph c).nodes.map (fun n => (n.id, n.qubit_index, n.op_name)) =
        iNodesProjSpec c c.ops.length)
    ∧ (build_interaction_graph c).nodes.length = iStart c c.ops.length
    ∧ (build_interaction_graph c).edges.filter isInterB = iInterSpec c c.ops.length
    ∧ ∀ v : Nat,
        ((((build_interaction_graph c).edges.filter isFlowB).filter
            (fun e => decide (e.dst = v))).length ≤ 1) ∧
        ((((build_interaction_graph c).edges.filter isFlowB).filter
            (fun e => decide (e.src = v))).length ≤ 1) := by
  obtain ⟨hι, hn, he, hl⟩ := iFoldInvariant c hq hops c.ops.length (le_refl _)
  rw [List.take_length] at hn he
  have hnodes : (build_interaction_graph c).nodes.map
      (fun n => (n.id, n.qubit_index, n.op_name)) = iNodesProjSpec c c.ops.length := hn
  have hedges : (build_interaction_graph c).edges = iEdgesSpec c c.ops.length := he
  refine ⟨hnodes, ?_, ?_, ?_⟩
  · have := congrArg List.length hnodes
    rw [List.length_map, iNodesProjSpec_length] at this
    exact this
  · rw [hedges]
    exact iEdgesSpec_filter_inter c c.ops.length
  · intro v
    constructor
    · rw [hedges]
      exact filter_beq_length_le_one ((iEdgesSpec c c.ops.length).filter isFlowB)
        (fun e => e.dst) v (iEdgesSpec_flow_dst_nodup c hq hops c.ops.length (le_refl _))
    · rw [hedges]
      exact filter_beq_length_le_one ((iEdgesSpec c c.ops.length).filter isFlowB)
        (fun e => e.src) v
        (iEdgesSpec_flow_src_nodup c hq hops c.ops.length (le_refl _)).1

/-- A mixed circuit: a single-wire h, a ccx (3 wires), a cx (2 wires),
and a 3-wire barrier. -/
def exMixI : Circuit :=
  ⟨[⟨0, 0⟩, ⟨0, 1⟩, ⟨0, 2⟩],
   [⟨"h", [⟨0, 0⟩]⟩, ⟨"ccx", [⟨0, 0⟩, ⟨0, 1⟩, ⟨0, 2⟩]⟩,
    ⟨"cx", [⟨0, 0⟩, ⟨0, 1⟩]⟩, ⟨"barrier", [⟨0, 0⟩, ⟨0, 1⟩, ⟨0, 2⟩]⟩]⟩

/-- Concrete check for C3: the mixed circuit yields 3 + 2 = 5 nodes (h
and barrier contribute none), and its interaction edges are exactly the
two stars 0→2, 1→2 (ccx) and 3→4 (cx). -/
theorem build_interaction_graph_correct_witness :
    (build_interaction_graph exMixI).nodes.length = 5 ∧
    (build_interaction_graph exMixI).edges.filter isInterB =
      [⟨0, 2, EdgeType.interaction, 2, some "ccx"⟩,
       ⟨1, 2, EdgeType.interaction, 2, some "ccx"⟩,
       ⟨3, 4, EdgeType.interaction, 2, some "cx"⟩] :=
  ⟨((build_interaction_graph_correct exMixI (by decide) (by decide)).2.1).trans (by decide),
   ((build_interaction_graph_correct exMixI (by decide) (by decide)).2.2.1).trans (by decide)⟩

/-- Claim C10: on a stream whose operations touch pairwise-distinct
wires, the built interaction graph has no parallel edges: the list of
(source, target) pairs over all edges (flow and interaction) has no
duplicate, so the labeler's parallel-edge collapse is vacuous on whole
built interaction graphs. -/
theorem build_interaction_graph_parallel_free (c : Circuit) (hq : c.qubits.Nodup)
    (hops : ∀ op ∈ c.ops, op.qargs.Nodup ∧ ∀ q ∈ op.qargs, q ∈ c.qubits) :
    ((build_interaction_graph c).edges.map (fun e => (e.src, e.dst))).Nodup := by
  obtain ⟨hι, hn, he, hl⟩ := iFoldInvariant c hq hops c.ops.length (le_refl _)
  rw [List.take_length] at he
  rw [show (build_interaction_graph c).edges = iEdgesSpec c c.ops.length from he]
  exact iEdgesSpec_pair_nodup c hq hops c.ops.length (le_refl _)

/-- Concrete check for C10 on the mixed circuit. -/
theorem build_interaction_graph_parallel_free_witness :
    ((build_interaction_graph exMixI).edges.map (fun e => (e.src, e.dst))).Nodup :=
  build_interaction_graph_parallel_free exMixI (by decide) (by decide)

/- ===================================================================
   Part 3: the canonical labeler (pattern_miner.get_canon_label).

   The labeler receives a multidigraph subgraph; for hashing it only
   reads each node's 'name' attribute (dataflow mode) and each edge's
   'type'/'label' attributes (comm mode), so subgraphs are embedded as
   LGraph values carrying exactly those attributes.  The networkx
   Weisfeiler-Lehman hash is embedded with the md5 digest modelled as
   the identity on the canonical strings (the spec documents the hash
   as best-effort collision-free); sorting at each aggregation step
   makes the result order-canonical exactly as in networkx.
   =================================================================== -/

/-- A node as the labeler sees it: identifier and 'name' attribute. -/
structure LNode where
  id : Nat
  name : String
deriving DecidableEq, Repr

/-- An edge as the labeler sees it: endpoints plus the optional 'type'
and 'label' attributes (data.get defaults are applied inside the
labeler, as in the code). -/
structure LEdge where
  src : Nat
  dst : Nat
  etype : Option String
  elabel : Option String
deriving DecidableEq, Repr

/-- A multidigraph subgraph handed to the labeler. -/
structure LGraph where
  nodes : List LNode
  edges : List LEdge
deriving DecidableEq, Repr

/-- The two labeling modes of get_canon_label. -/
inductive LMode where
  | dataflow
  | comm
deriving DecidableEq, Repr

/-- Decimal digit character. -/
def digitChar (d : Nat) : Char := Char.ofNat (48 + d)

/-- Structurally recursive decimal rendering (kernel-computable
replacement for toString on Nat; same decimal output as Python str). -/
def natToStrCore : Nat → Nat → List Char
  | 0, _ => []
  | fuel + 1, n =>
      if n < 10 then [digitChar n]
      else natToStrCore fuel (n / 10) ++ [digitChar (n % 10)]

/-- Decimal rendering of a natural number. -/
def natToStr (n : Nat) : String := ⟨natToStrCore (n + 1) n⟩

/-- Kernel-computable lexicographic comparison of character lists by
code point (the order Python sorted() uses on strings). -/
def lexLe : List Char → List Char → Bool
  | [], _ => true
  | _ :: _, [] => false
  | a :: as, b :: bs =>
      if a.toNat < b.toNat then true
      else if b.toNat < a.toNat then false
      else lexLe as bs

/-- String order by code points (structural, kernel-computable). -/
def strLe (a b : String) : Prop := lexLe a.data b.data = true

instance : DecidableRel strLe := fun a b => by
  unfold strLe
  infer_instance

lemma lexLe_total : ∀ as bs, lexLe as bs = true ∨ lexLe bs as = true := by
  intro as
  induction as with
  | nil => intro bs; left; rfl
  | cons a as ih =>
    intro bs
    cases bs with
    | nil => right; rfl
    | cons b bs =>
      by_cases hab : a.toNat < b.toNat
      · left
        rw [lexLe, if_pos hab]
      · by_cases hba : b.toNat < a.toNat
        · right
          rw [lexLe, if_pos hba]
        · rcases ih bs with h | h
          · left
            rw [lexLe, if_neg hab, if_neg hba]
            exact h
          · right
            rw [lexLe, if_neg hba, if_neg hab]
            exact h

lemma lexLe_trans : ∀ as bs cs, lexLe as bs = true → lexLe bs cs = true →
    lexLe as cs = true := by
  intro as
  induction as with
  | nil => intro bs cs _ _; rfl
  | cons a as ih =>
    intro bs cs h1 h2
    cases bs with
    | nil => cases h1
    | cons b bs =>
      cases cs with
      | nil => cases h2
      | cons c cs =>
        rw [lexLe] at h1 h2 ⊢
        by_cases hab : a.toNat < b.toNat <;> by_cases hbc : b.toNat < c.toNat
        · rw [if_pos (by omega : a.toNat < c.toNat)]
        · rw [if_neg hbc] at h2
          by_cases hcb : c.toNat < b.toNat
          · rw [if_pos hcb] at h2
            cases h2
          · rw [if_neg hcb] at h2
            rw [if_pos (by omega : a.toNat < c.toNat)]
        · rw [if_pos hbc] at h2
          rw [if_neg hab] at h1
          by_cases hba : b.toNat < a.toNat
          · rw [if_pos hba] at h1
            cases h1
          · rw [if_neg hba] at h1
            rw [if_pos (by omega : a.toNat < c.toNat)]
        · rw [if_neg hab] at h1
          rw [if_neg hbc] at h2
          by_cases hba : b.toNat < a.toNat
          · rw [if_pos hba] at h1
            cases h1
          · by_cases hcb : c.toNat < b.toNat
            · rw [if_pos hcb] at h2
              cases h2
            · rw [if_neg hba] at h1
              rw [if_neg hcb] at h2
              rw [if_neg (by omega : ¬ a.toNat < c.toNat),
                if_neg (by omega : ¬ c.toNat < a.toNat)]
              exact ih bs cs h1 h2

lemma lexLe_antisymm : ∀ as bs, lexLe as bs = true → lexLe bs as = true → as = bs := by
  intro as
  induction as with
  | nil =>
    intro bs _ h2
    cases bs with
    | nil => rfl
    | cons b bs => cases h2
  | cons a as ih =>
    intro bs h1 h2
    cases bs with
    | nil => cases h1
    | cons b bs =>
      rw [lexLe] at h1 h2
      by_cases hab : a.toNat < b.toNat
      · rw [if_neg (by omega : ¬ b.toNat < a.toNat), if_pos hab] at h2
        cases h2
      · by_cases hba : b.toNat < a.toNat
        · rw [if_neg hab, if_pos hba] at h1
          cases h1
        · rw [if_neg hab, if_neg hba] at h1
          rw [if_neg hba, if_neg hab] at h2
          have hc : a = b := by
            apply Char.eq_of_val_eq
            apply UInt32.toNat.inj
            show a.toNat = b.toNat
            omega
          rw [hc, ih bs h1 h2]

instance : IsTotal String strLe := ⟨fun a b => lexLe_total a.data b.data⟩

instance : IsTrans String strLe := ⟨fun a b c => lexLe_trans a.data b.data c.data⟩

instance : IsAntisymm String strLe :=
  ⟨fun a b h1 h2 => by
    cases a; cases b
    exact congrArg String.mk (lexLe_antisymm _ _ h1 h2)⟩

/-- Canonical sort of a list of strings (Python sorted()). -/
def sortStrs (l : List String) : List String := List.insertionSort strLe l

/-- The node identifiers of a labeler graph. -/
def lNodeIds (g : LGraph) : List Nat := g.nodes.map (fun x => x.id)

/-- Node-attribute lookup (dg.nodes[n]['name']). -/
def lNodeName (g : LGraph) (n : Nat) : String :=
  ((g.nodes.find? (fun x => x.id == n)).map (fun x => x.name)).getD ""

/-- The parallel edges from u to v. -/
def parEdges (g : LGraph) (u v : Nat) : List LEdge :=
  g.edges.filter (fun e => decide (e.src = u ∧ e.dst = v))

/-- The comm-mode tag of one edge: "{type}_{label}" with data.get
defaults 'unknown' and ''. -/
def edgeTag (e : LEdge) : String := (e.etype.getD "unknown") ++ "_" ++ (e.elabel.getD "")

/-- The composite attribute of the collapsed simple edge u→v: in comm
mode the sorted, pipe-joined parallel tags; in dataflow mode the string
count of parallel edges. -/
def edgeAttr (g : LGraph) (mode : LMode) (u v : Nat) : String :=
  match mode with
  | LMode.comm => String.intercalate "|" (sortStrs ((parEdges g u v).map edgeTag))
  | LMode.dataflow => natToStr (parEdges g u v).length

/-- Successors of n in the collapsed simple digraph (deduplicated
targets of edges leaving n). -/
def succsOf (g : LGraph) (n : Nat) : List Nat :=
  (g.edges.filterMap (fun e => if e.src = n then some e.dst else none)).dedup

/-- Initial WL label of a node: its name under by-operation-name mode, a
shared generic token under by-edge-role mode. -/
def initLabel (g : LGraph) (mode : LMode) : Nat → String :=
  match mode with
  | LMode.dataflow => fun n => lNodeName g n
  | LMode.comm => fun _ => "node"

/-- One WL refinement step: the node's label followed by the sorted list
of (edge attribute ++ successor label) strings. -/
def wlStep (g : LGraph) (mode : LMode) (lbl : Nat → String) : Nat → String :=
  fun n =>
    lbl n ++ String.join (sortStrs ((succsOf g n).map (fun v => edgeAttr g mode n v ++ lbl v)))

/-- WL labels after i refinement steps. -/
def wlLabel (g : LGraph) (mode : LMode) : Nat → Nat → String
  | 0 => initLabel g mode
  | i + 1 => wlStep g mode (wlLabel g mode i)

/-- The sorted (label, multiplicity) items of one iteration's Counter. -/
def counterSorted (ls : List String) : List (String × Nat) :=
  (sortStrs ls.dedup).map (fun s => (s, ls.count s))

/-- The items contributed by iteration i. -/
def wlItems (g : LGraph) (mode : LMode) (i : Nat) : List (String × Nat) :=
  counterSorted ((lNodeIds g).map (wlLabel g mode i))

/-- Embedding of pattern_miner.get_canon_label: collapse parallel edges
to attributed simple edges, label nodes by mode, run 3 WL iterations and
serialize the accumulated sorted counters (the md5 digest is modelled as
the identity, so equality of results models equality of the real
hashes). -/
def get_canon_label (g : LGraph) (mode : LMode) : String :=
  String.intercalate ";"
    ((wlItems g mode 1 ++ wlItems g mode 2 ++ wlItems g mode 3).map
      (fun p => p.1 ++ "#" ++ natToStr p.2))

lemma sortStrs_congr {l1 l2 : List String} (h : l1.Perm l2) : sortStrs l1 = sortStrs l2 :=
  List.eq_of_perm_of_sorted
    ((List.perm_insertionSort strLe l1).trans (h.trans (List.perm_insertionSort strLe l2).symm))
    (List.sorted_insertionSort strLe l1) (List.sorted_insertionSort strLe l2)

lemma counterSorted_perm {l1 l2 : List String} (h : l1.Perm l2) :
    counterSorted l1 = counterSorted l2 := by
  rw [counterSorted, counterSorted, sortStrs_congr h.dedup]
  apply List.map_congr_left
  intro s _
  rw [h.count_eq]

lemma dedup_map_of_injOn (φ : Nat → Nat) :
    ∀ (l : List Nat), (∀ x ∈ l, ∀ y ∈ l, φ x = φ y → x = y) →
      (l.map φ).dedup = l.dedup.map φ := by
  intro l
  induction l with
  | nil => intro _; simp
  | cons a t ih =>
    intro hinj
    have hinjt : ∀ x ∈ t, ∀ y ∈ t, φ x = φ y → x = y := fun x hx y hy =>
      hinj x (List.mem_cons_of_mem a hx) y (List.mem_cons_of_mem a hy)
    rw [List.map_cons]
    by_cases hat : a ∈ t
    · have hfat : φ a ∈ t.map φ := List.mem_map_of_mem φ hat
      rw [List.dedup_cons_of_mem hfat, List.dedup_cons_of_mem hat, ih hinjt]
    · have hfat : φ a ∉ t.map φ := by
        intro hmem
        obtain ⟨x, hx, hfx⟩ := List.mem_map.mp hmem
        exact hat (hinj x (List.mem_cons_of_mem a hx) a (List.mem_cons_self a t)
          hfx ▸ hx)
      rw [List.dedup_cons_of_not_mem hfat, List.dedup_cons_of_not_mem hat,
        List.map_cons, ih hinjt]

lemma find_eq_of_nodup_ids :
    ∀ (L : List LNode), (L.map (fun x => x.id)).Nodup →
      ∀ x ∈ L, L.find? (fun y => y.id == x.id) = some x := by
  intro L
  induction L with
  | nil => intro _ x hx; cases hx
  | cons a t ih =>
    intro hnd x hx
    obtain ⟨hat, hndt⟩ : (∀ y ∈ t, ¬ y.id = a.id) ∧ (t.map (fun x => x.id)).Nodup := by
      simpa using hnd
    rcases List.mem_cons.mp hx with rfl | hxt
    · rw [List.find?_cons_of_pos]
      simp
    · rw [List.find?_cons_of_neg, ih hndt x hxt]
      simp only [beq_iff_eq]
      intro h
      exact hat x hxt (h.symm ▸ rfl)

/-- Renaming of a node by an id-relabeling. -/
def nMap (φ : Nat → Nat) (x : LNode) : LNode := ⟨φ x.id, x.name⟩

/-- Renaming of an edge by an id-relabeling (attributes preserved). -/
def eMap (φ : Nat → Nat) (e : LEdge) : LEdge := ⟨φ e.src, φ e.dst, e.etype, e.elabel⟩

/-- Well-formed labeler graph: unique node ids and edges between nodes. -/
def LWF (g : LGraph) : Prop :=
  (lNodeIds g).Nodup ∧ ∀ e ∈ g.edges, e.src ∈ lNodeIds g ∧ e.dst ∈ lNodeIds g

instance (g : LGraph) : Decidable (LWF g) := by
  unfold LWF
  infer_instance

lemma parEdges_map (g1 g2 : LGraph) (φ : Nat → Nat)
    (hwf : LWF g1)
    (hinj : ∀ a ∈ lNodeIds g1, ∀ b ∈ lNodeIds g1, φ a = φ b → a = b)
    (hedges : g2.edges.Perm (g1.edges.map (eMap φ)))
    {u v : Nat} (hu : u ∈ lNodeIds g1) (hv : v ∈ lNodeIds g1) :
    (parEdges g2 (φ u) (φ v)).Perm ((parEdges g1 u v).map (eMap φ)) := by
  have h1 := hedges.filter (fun e => decide (e.src = φ u ∧ e.dst = φ v))
  rw [List.filter_map] at h1
  have h2 : (g1.edges.filter
      ((fun e => decide (e.src = φ u ∧ e.dst = φ v)) ∘ eMap φ)) = parEdges g1 u v := by
    rw [parEdges]
    apply List.filter_congr
    intro e he
    simp only [Function.comp_apply, eMap]
    rw [decide_eq_decide]
    constructor
    · rintro ⟨h3, h4⟩
      exact ⟨hinj e.src (hwf.2 e he).1 u hu h3, hinj e.dst (hwf.2 e he).2 v hv h4⟩
    · rintro ⟨h3, h4⟩
      rw [h3, h4]
      exact ⟨rfl, rfl⟩
  rw [h2] at h1
  exact h1

lemma edgeAttr_map (g1 g2 : LGraph) (φ : Nat → Nat) (mode : LMode)
    (hwf : LWF g1)
    (hinj : ∀ a ∈ lNodeIds g1, ∀ b ∈ lNodeIds g1, φ a = φ b → a = b)
    (hedges : g2.edges.Perm (g1.edges.map (eMap φ)))
    {u v : Nat} (hu : u ∈ lNodeIds g1) (hv : v ∈ lNodeIds g1) :
    edgeAttr g2 mode (φ u) (φ v) = edgeAttr g1 mode u v := by
  have hpar := parEdges_map g1 g2 φ hwf hinj hedges hu hv
  cases mode with
  | comm =>
    rw [edgeAttr, edgeAttr]
    congr 1
    apply sortStrs_congr
    have h1 := hpar.map edgeTag
    rw [List.map_map] at h1
    have h2 : (edgeTag ∘ eMap φ) = edgeTag := by
      funext e
      rfl
    rw [h2] at h1
    exact h1
  | dataflow =>
    rw [edgeAttr, edgeAttr]
    congr 1
    rw [hpar.length_eq, List.length_map]

lemma succsOf_sub (g : LGraph) (hwf : LWF g) (n : Nat) :
    ∀ w ∈ succsOf g n, w ∈ lNodeIds g := by
  intro w hw
  rw [succsOf, List.mem_dedup] at hw
  obtain ⟨e, he, hmap⟩ := List.mem_filterMap.mp hw
  by_cases hsrc : e.src = n
  · rw [if_pos hsrc] at hmap
    injection hmap with hmap
    exact hmap ▸ (hwf.2 e he).2
  · rw [if_neg hsrc] at hmap
    cases hmap

lemma succsOf_map (g1 g2 : LGraph) (φ : Nat → Nat)
    (hwf : LWF g1)
    (hinj : ∀ a ∈ lNodeIds g1, ∀ b ∈ lNodeIds g1, φ a = φ b → a = b)
    (hedges : g2.edges.Perm (g1.edges.map (eMap φ)))
    {n : Nat} (hn : n ∈ lNodeIds g1) :
    (succsOf g2 (φ n)).Perm ((succsOf g1 n).map φ) := by
  have h1 := hedges.filterMap (fun e => if e.src = φ n then some e.dst else none)
  rw [List.filterMap_map] at h1
  have h2 : g1.edges.filterMap
      ((fun e => if e.src = φ n then some e.dst else none) ∘ eMap φ) =
      (g1.edges.filterMap (fun e => if e.src = n then some e.dst else none)).map φ := by
    rw [List.map_filterMap]
    apply List.filterMap_congr
    intro e he
    simp only [Function.comp_apply, eMap]
    by_cases hsrc : e.src = n
    · rw [if_pos (by rw [hsrc]), if_pos hsrc]
      rfl
    · rw [if_neg ?_, if_neg hsrc]
      · rfl
      · intro hcon
        exact hsrc (hinj e.src (hwf.2 e he).1 n hn hcon)
  rw [h2] at h1
  rw [succsOf, succsOf]
  refine h1.dedup.trans ?_
  have hinjt : ∀ x ∈ g1.edges.filterMap (fun e => if e.src = n then some e.dst else none),
      ∀ y ∈ g1.edges.filterMap (fun e => if e.src = n then some e.dst else none),
      φ x = φ y → x = y := by
    intro x hx y hy
    have hxs : x ∈ lNodeIds g1 := by
      obtain ⟨e, he, hmap⟩ := List.mem_filterMap.mp hx
      by_cases hsrc : e.src = n
      · rw [if_pos hsrc] at hmap
        injection hmap with hmap
        exact hmap ▸ (hwf.2 e he).2
      · rw [if_neg hsrc] at hmap
        cases hmap
    have hys : y ∈ lNodeIds g1 := by
      obtain ⟨e, he, hmap⟩ := List.mem_filterMap.mp hy
      by_cases hsrc : e.src = n
      · rw [if_pos hsrc] at hmap
        injection hmap with hmap
        exact hmap ▸ (hwf.2 e he).2
      · rw [if_neg hsrc] at hmap
        cases hmap
    exact hinj x hxs y hys
  rw [dedup_map_of_injOn φ _ hinjt]

lemma lNodeName_map (g1 g2 : LGraph) (φ : Nat → Nat)
    (hwf : LWF g1)
    (hinj : ∀ a ∈ lNodeIds g1, ∀ b ∈ lNodeIds g1, φ a = φ b → a = b)
    (hnodes : g2.nodes.Perm (g1.nodes.map (nMap φ)))
    {n : Nat} (hn : n ∈ lNodeIds g1) :
    lNodeName g2 (φ n) = lNodeName g1 n := by
  obtain ⟨x, hx, hxid⟩ := List.mem_map.mp hn
  have hids2 : (g2.nodes.map (fun y => y.id)).Nodup := by
    refine (hnodes.map (fun y => y.id)).nodup_iff.mpr ?_
    rw [List.map_map]
    have : ((fun y => y.id) ∘ nMap φ) = fun x => φ x.id := by
      funext y
      rfl
    rw [this]
    have hcomp : (g1.nodes.map fun x => φ x.id) = (g1.nodes.map (fun x => x.id)).map φ := by
      rw [List.map_map]
      rfl
    rw [hcomp]
    refine List.Nodup.map_on ?_ hwf.1
    intro a ha b hb
    exact hinj a ha b hb
  have hx2 : nMap φ x ∈ g2.nodes :=
    hnodes.mem_iff.mpr (List.mem_map_of_mem (nMap φ) hx)
  have hfind2 : g2.nodes.find? (fun y => y.id == (nMap φ x).id) = some (nMap φ x) :=
    find_eq_of_nodup_ids g2.nodes hids2 (nMap φ x) hx2
  have hfind1 : g1.nodes.find? (fun y => y.id == x.id) = some x :=
    find_eq_of_nodup_ids g1.nodes hwf.1 x hx
  rw [lNodeName, lNodeName, ← hxid]
  rw [show φ x.id = (nMap φ x).id from rfl, hfind2, hfind1]
  rfl

lemma wlLabel_map (g1 g2 : LGraph) (φ : Nat → Nat) (mode : LMode)
    (hwf : LWF g1)
    (hinj : ∀ a ∈ lNodeIds g1, ∀ b ∈ lNodeIds g1, φ a = φ b → a = b)
    (hnodes : g2.nodes.Perm (g1.nodes.map (nMap φ)))
    (hedges : g2.edges.Perm (g1.edges.map (eMap φ))) :
    ∀ i, ∀ n ∈ lNodeIds g1, wlLabel g2 mode i (φ n) = wlLabel g1 mode i n := by
  intro i
  induction i with
  | zero =>
    intro n hn
    cases mode with
    | dataflow => exact lNodeName_map g1 g2 φ hwf hinj hnodes hn
    | comm => rfl
  | succ i ih =>
    intro n hn
    rw [wlLabel, wlLabel, wlStep, wlStep, ih n hn]
    congr 1
    congr 1
    apply sortStrs_congr
    have hsucc := succsOf_map g1 g2 φ hwf hinj hedges hn
    have h1 := hsucc.map (fun v => edgeAttr g2 mode (φ n) v ++ wlLabel g2 mode i v)
    refine h1.trans ?_
    rw [List.map_map]
    have h2 : ∀ w ∈ succsOf g1 n,
        ((fun v => edgeAttr g2 mode (φ n) v ++ wlLabel g2 mode i v) ∘ φ) w =
          edgeAttr g1 mode n w ++ wlLabel g1 mode i w := by
      intro w hw
      have hws : w ∈ lNodeIds g1 := succsOf_sub g1 hwf n w hw
      simp only [Function.comp_apply]
      rw [edgeAttr_map g1 g2 φ mode hwf hinj hedges hn hws, ih w hws]
    rw [List.map_congr_left h2]

/-- Claim C4 (amended): the canonical labeler is invariant under node
relabeling with attributes and parallel-edge multiplicities preserved:
if g2 is g1 with node ids renamed by a map injective on g1's ids (node
and edge lists up to reordering), then get_canon_label agrees on g1 and
g2 in both modes.  (The claim as stated, which also allows the parallel
-edge multiplicities to differ, is false: the multiplicity enters the
collapsed edge attribute in both modes, see
get_canon_label_multiplicity_sensitive.) -/
theorem get_canon_label_iso_invariant (g1 g2 : LGraph) (φ : Nat → Nat) (mode : LMode)
    (hwf : LWF g1)
    (hinj : ∀ a ∈ lNodeIds g1, ∀ b ∈ lNodeIds g1, φ a = φ b → a = b)
    (hnodes : g2.nodes.Perm (g1.nodes.map (nMap φ)))
    (hedges : g2.edges.Perm (g1.edges.map (eMap φ))) :
    get_canon_label g2 mode = get_canon_label g1 mode := by
  have hitems : ∀ i, wlItems g2 mode i = wlItems g1 mode i := by
    intro i
    rw [wlItems, wlItems]
    apply counterSorted_perm
    have hid2 : (lNodeIds g2).Perm ((lNodeIds g1).map φ) := by
      have := hnodes.map (fun y => y.id)
      rw [List.map_map] at this
      have hcomp : ((fun y => y.id) ∘ nMap φ) = fun x => φ x.id := by
        funext y
        rfl
      rw [hcomp] at this
      have hcomp2 : (g1.nodes.map fun x => φ x.id) = (g1.nodes.map (fun x => x.id)).map φ := by
        rw [List.map_map]
        rfl
      rw [hcomp2] at this
      exact this
    have h1 := hid2.map (wlLabel g2 mode i)
    refine h1.trans ?_
    rw [List.map_map]
    have h2 : ∀ n ∈ lNodeIds g1,
        (wlLabel g2 mode i ∘ φ) n = wlLabel g1 mode i n := by
      intro n hn
      exact wlLabel_map g1 g2 φ mode hwf hinj hnodes hedges i n hn
    rw [List.map_congr_left h2]
  rw [get_canon_label, get_canon_label, hitems 1, hitems 2, hitems 3]

/-- Two nodes joined by one edge. -/
def lgSingle : LGraph := ⟨[⟨0, "cx"⟩, ⟨1, "cx"⟩], [⟨0, 1, some "flow", none⟩]⟩

/-- The same two nodes joined by two parallel copies of the edge. -/
def lgDouble : LGraph :=
  ⟨[⟨0, "cx"⟩, ⟨1, "cx"⟩], [⟨0, 1, some "flow", none⟩, ⟨0, 1, some "flow", none⟩]⟩

/-- Claim C4 counterexample: lgSingle and lgDouble are identical up to
parallel-edge multiplicities (same nodes, same edge set, different
multiplicity), yet the labeler hashes them differently in BOTH modes:
the parallel-edge count (dataflow) and the pipe-joined tag list (comm)
enter the collapsed edge attribute. -/
theorem get_canon_label_multiplicity_sensitive :
    lgSingle.nodes = lgDouble.nodes ∧
    (∀ e ∈ lgDouble.edges, e ∈ lgSingle.edges) ∧
    get_canon_label lgSingle LMode.dataflow ≠ get_canon_label lgDouble LMode.dataflow ∧
    get_canon_label lgSingle LMode.comm ≠ get_canon_label lgDouble LMode.comm := by
  decide

/-- lgSingle with node ids shifted by 5 (and lists as produced by the
renaming). -/
def lgSingleShift : LGraph :=
  ⟨lgSingle.nodes.map (nMap (fun n => n + 5)), lgSingle.edges.map (eMap (fun n => n + 5))⟩

/-- Concrete check for the amended C4: renaming ids 0,1 to 5,6 leaves
the hash unchanged. -/
theorem get_canon_label_iso_invariant_witness :
    get_canon_label lgSingleShift LMode.dataflow = get_canon_label lgSingle LMode.dataflow :=
  get_canon_label_iso_invariant lgSingle lgSingleShift (fun n => n + 5) LMode.dataflow
    (by decide) (by decide) (List.Perm.refl _) (List.Perm.refl _)

lemma succsOf_edges_congr (g1 g2 : LGraph) (h : g1.edges = g2.edges) (n : Nat) :
    succsOf g1 n = succsOf g2 n := by
  rw [succsOf, succsOf, h]

lemma edgeAttr_edges_congr (g1 g2 : LGraph) (h : g1.edges = g2.edges)
    (mode : LMode) (u v : Nat) : edgeAttr g1 mode u v = edgeAttr g2 mode u v := by
  cases mode <;> rw [edgeAttr, edgeAttr, parEdges, parEdges, h]

lemma wlLabel_comm_congr (g1 g2 : LGraph) (h : g1.edges = g2.edges) :
    ∀ i n, wlLabel g1 LMode.comm i n = wlLabel g2 LMode.comm i n := by
  intro i
  induction i with
  | zero => intro n; rfl
  | succ i ih =>
    intro n
    rw [wlLabel, wlLabel, wlStep, wlStep, ih n, succsOf_edges_congr g1 g2 h n]
    congr 1
    congr 1
    congr 1
    apply List.map_congr_left
    intro v _
    rw [edgeAttr_edges_congr g1 g2 h, ih v]

/-- g1 with node 0 renamed from x to z (same ids, same edges). -/
def lgNameA : LGraph := ⟨[⟨0, "x"⟩, ⟨1, "y"⟩], [⟨0, 1, some "flow", none⟩]⟩

/-- Identical to lgNameA except for node 0's operation name. -/
def lgNameB : LGraph := ⟨[⟨0, "z"⟩, ⟨1, "y"⟩], [⟨0, 1, some "flow", none⟩]⟩

/-- Claim C5 (amended): by-edge-role (comm) mode assigns the same hash
to any two subgraphs with the same node ids and the same edges, no
matter what operation names their nodes store (the comm hash never
reads node names); by-operation-name (dataflow) mode does read names:
on the concrete pair lgNameA/lgNameB, which differ only in one node's
stored name, the dataflow hashes differ.  (The universally quantified
negative half of the claim as stated is false: when the differing names
merely permute a symmetric structure the dataflow hashes coincide, see
dataflow_hash_equal_on_swapped_names.) -/
theorem get_canon_label_mode_sensitivity :
    (∀ g1 g2 : LGraph, lNodeIds g1 = lNodeIds g2 → g1.edges = g2.edges →
        get_canon_label g1 LMode.comm = get_canon_label g2 LMode.comm)
    ∧ (lNodeIds lgNameA = lNodeIds lgNameB ∧ lgNameA.edges = lgNameB.edges ∧
        lgNameA.nodes ≠ lgNameB.nodes ∧
        get_canon_label lgNameA LMode.dataflow ≠ get_canon_label lgNameB LMode.dataflow) := by
  constructor
  · intro g1 g2 hids hedges
    have hfun : ∀ i, wlLabel g1 LMode.comm i = wlLabel g2 LMode.comm i := by
      intro i
      funext n
      exact wlLabel_comm_congr g1 g2 hedges i n
    have hitems : ∀ i, wlItems g1 LMode.comm i = wlItems g2 LMode.comm i := by
      intro i
      rw [wlItems, wlItems, hids, hfun i]
    rw [get_canon_label, get_canon_label, hitems 1, hitems 2, hitems 3]
  · exact ⟨by decide, by decide, by decide, by decide⟩

/-- Nodes with names x,y at ids 0,1 (no edges). -/
def lgSwapA : LGraph := ⟨[⟨0, "x"⟩, ⟨1, "y"⟩], []⟩

/-- The same ids with the two names swapped. -/
def lgSwapB : LGraph := ⟨[⟨0, "y"⟩, ⟨1, "x"⟩], []⟩

/-- Claim C5 counterexample: two otherwise-identical subgraphs (same
ids, same edges) whose node operation names differ pointwise, yet
by-operation-name mode assigns them the SAME hash — the hash is
isomorphism-invariant, so permuting the names of a symmetric structure
cannot change it.  This refutes the universally quantified claim that
by-operation-name mode must assign different hashes whenever operation
names differ. -/
theorem dataflow_hash_equal_on_swapped_names :
    lgSwapA.nodes ≠ lgSwapB.nodes ∧
    lNodeIds lgSwapA = lNodeIds lgSwapB ∧ lgSwapA.edges = lgSwapB.edges ∧
    get_canon_label lgSwapA LMode.dataflow = get_canon_label lgSwapB LMode.dataflow := by
  decide

/-- Concrete check for the comm half of the amended C5: the comm hash
ignores the differing names of lgNameA and lgNameB. -/
theorem get_canon_label_mode_sensitivity_witness :
    get_canon_label lgNameA LMode.comm = get_canon_label lgNameB LMode.comm :=
  get_canon_label_mode_sensitivity.1 lgNameA lgNameB (by decide) (by decide)

/- ===================================================================
   Part 4: mining workers and aggregation (pattern_miner.mine_graph_k
   and the aggregation loop of pattern_miner.mine_patterns).

   A worker receives a graph and the list of subgraph node-sets that the
   enumerator or sampler produced (samplers append accepted samples
   only; discarded samples never reach the worker's list), computes one
   canonical hash per subgraph, counts hashes (the Counter is a multiset
   of hashes), reports total_units = len(subgraphs), and keeps the first
   exemplar per hash.
   =================================================================== -/

/-- G.subgraph(nodes).copy for labeler graphs: induced subgraph. -/
def inducedL (g : LGraph) (s : Finset Nat) : LGraph :=
  ⟨g.nodes.filter (fun x => decide (x.id ∈ s)),
   g.edges.filter (fun e => decide (e.src ∈ s ∧ e.dst ∈ s))⟩

/-- Result tuple of one mine_graph_k task. -/
structure MineResult where
  gIdx : Nat
  hashCounts : Multiset String
  totalUnits : Nat
  examples : List (String × LGraph)

/-- examples[h] = sub_G on first sight of h. -/
def recordExample (acc : List (String × LGraph)) (h : String) (sub : LGraph) :
    List (String × LGraph) :=
  if (acc.find? (fun p => p.1 == h)).isSome then acc else acc ++ [(h, sub)]

/-- The per-subgraph body of mine_graph_k's loop. -/
def mineStep (g : LGraph) (mode : LMode)
    (acc : Multiset String × List (String × LGraph)) (s : Finset Nat) :
    Multiset String × List (String × LGraph) :=
  let sub := inducedL g s
  let h := get_canon_label sub mode
  (acc.1 + {h}, recordExample acc.2 h sub)

/-- Embedding of pattern_miner.mine_graph_k, with the subgraph list (the
output of find_subgraphs_of_size_k or of a sampler, which contains the
accepted samples only) passed explicitly. -/
def mine_graph_k (G : Option LGraph) (k gIdx : Nat) (mode : LMode)
    (subgraphs : List (Finset Nat)) : MineResult :=
  match G with
  | none => ⟨gIdx, 0, 0, []⟩
  | some g =>
      if g.nodes.length < k then ⟨gIdx, 0, 0, []⟩
      else
        let res := subgraphs.foldl (mineStep g mode) (0, [])
        ⟨gIdx, res.1, subgraphs.length, res.2⟩

/-- The aggregation loop of mine_patterns: sum the counters and the
totals over all worker results. -/
def aggregate (rs : List MineResult) : Multiset String × Nat :=
  rs.foldl (fun acc r => (acc.1 + r.hashCounts, acc.2 + r.totalUnits)) (0, 0)

/-- Reported relative frequency: count / total, taken as 0 when the
total examined is 0. -/
def frequency (count total : Nat) : ℚ :=
  if 0 < total then (count : ℚ) / total else 0

lemma mineStep_fold_counts (g : LGraph) (mode : LMode) :
    ∀ (subgraphs : List (Finset Nat)) (acc : Multiset String × List (String × LGraph)),
      (subgraphs.foldl (mineStep g mode) acc).1 =
        acc.1 + ↑(subgraphs.map (fun s => get_canon_label (inducedL g s) mode)) := by
  intro subgraphs
  induction subgraphs with
  | nil => intro acc; simp
  | cons s t ih =>
    intro acc
    rw [List.foldl_cons, ih]
    show acc.1 + {get_canon_label (inducedL g s) mode} +
        ↑(t.map (fun x => get_canon_label (inducedL g x) mode)) =
      acc.1 + ↑((s :: t).map (fun x => get_canon_label (inducedL g x) mode))
    rw [List.map_cons, add_assoc, Multiset.singleton_add, Multiset.cons_coe]

lemma mine_graph_k_counts (G : Option LGraph) (k gIdx : Nat) (mode : LMode)
    (subgraphs : List (Finset Nat)) :
    Multiset.card (mine_graph_k G k gIdx mode subgraphs).hashCounts =
      (mine_graph_k G k gIdx mode subgraphs).totalUnits := by
  match G with
  | none => rfl
  | some g =>
      rw [mine_graph_k]
      by_cases hk : g.nodes.length < k
      · rw [if_pos hk]
        rfl
      · rw [if_neg hk]
        simp only
        rw [mineStep_fold_counts g mode subgraphs (0, [])]
        simp

lemma aggregate_spec (rs : List MineResult) :
    (aggregate rs).1 = (rs.map (fun r => r.hashCounts)).sum ∧
      (aggregate rs).2 = (rs.map (fun r => r.totalUnits)).sum := by
  rw [aggregate]
  suffices h : ∀ (acc : Multiset String × Nat),
      (rs.foldl (fun acc r => (acc.1 + r.hashCounts, acc.2 + r.totalUnits)) acc) =
        (acc.1 + (rs.map (fun r => r.hashCounts)).sum,
          acc.2 + (rs.map (fun r => r.totalUnits)).sum) by
    rw [h (0, 0)]
    constructor <;> simp
  induction rs with
  | nil => intro acc; simp
  | cons r t ih =>
    intro acc
    rw [List.foldl_cons, ih]
    simp only [List.map_cons, List.sum_cons]
    rw [Prod.mk.injEq]
    constructor <;> rw [add_assoc]

/-- Claim C6: for every mining run (any list of worker tasks, each a
graph with the subgraph node-sets its enumerator or sampler produced —
discarded samples never appear in that list), the sum of occurrence
counts over all pattern hashes equals exactly the global total of
subgraphs examined, both per worker and after aggregation, and the
reported relative frequency is count/total (as rationals), taken as 0
when the total examined is 0. -/
theorem mining_counts_consistent
    (tasks : List (Option LGraph × Nat × Nat × LMode × List (Finset Nat))) :
    (∀ t ∈ tasks,
      (Finset.sum (mine_graph_k t.1 t.2.1 t.2.2.1 t.2.2.2.1 t.2.2.2.2).hashCounts.toFinset
          (fun h => (mine_graph_k t.1 t.2.1 t.2.2.1 t.2.2.2.1 t.2.2.2.2).hashCounts.count h)) =
        (mine_graph_k t.1 t.2.1 t.2.2.1 t.2.2.2.1 t.2.2.2.2).totalUnits)
    ∧ (Finset.sum (aggregate (tasks.map (fun t =>
          mine_graph_k t.1 t.2.1 t.2.2.1 t.2.2.2.1 t.2.2.2.2))).1.toFinset
        (fun h => (aggregate (tasks.map (fun t =>
          mine_graph_k t.1 t.2.1 t.2.2.1 t.2.2.2.1 t.2.2.2.2))).1.count h)) =
        (aggregate (tasks.map (fun t =>
          mine_graph_k t.1 t.2.1 t.2.2.1 t.2.2.2.1 t.2.2.2.2))).2
    ∧ ∀ count total : Nat,
        (0 < total → frequency count total * total = count) ∧
        (total = 0 → frequency count total = 0) := by
  refine ⟨?_, ?_, ?_⟩
  · intro t _
    rw [Multiset.toFinset_sum_count_eq]
    exact mine_graph_k_counts t.1 t.2.1 t.2.2.1 t.2.2.2.1 t.2.2.2.2
  · rw [Multiset.toFinset_sum_count_eq]
    obtain ⟨h1, h2⟩ := aggregate_spec (tasks.map (fun t =>
      mine_graph_k t.1 t.2.1 t.2.2.1 t.2.2.2.1 t.2.2.2.2))
    rw [h1, h2]
    have hcard : ∀ (ms : List (Multiset String)),
        Multiset.card ms.sum = (ms.map Multiset.card).sum := by
      intro ms
      induction ms with
      | nil => simp
      | cons m t ih => simp [ih]
    rw [hcard]
    simp only [List.map_map]
    congr 1
    apply List.map_congr_left
    intro t _
    exact mine_graph_k_counts t.1 t.2.1 t.2.2.1 t.2.2.2.1 t.2.2.2.2
  · intro count total
    constructor
    · intro hpos
      rw [frequency, if_pos hpos]
      have : (total : ℚ) ≠ 0 := by
        exact_mod_cast Nat.pos_iff_ne_zero.mp hpos
      field_simp
    · intro hz
      rw [frequency, if_neg (by omega)]

/-- Concrete check for C6: one worker with two subgraphs of a two-node
graph yields counter total 2 = examined total 2, and the frequency of a
count-1 pattern among 2 examined is 1/2. -/
theorem mining_counts_consistent_witness :
    (Finset.sum (mine_graph_k (some lgSingle) 1 0 LMode.dataflow
        [{0}, {1}]).hashCounts.toFinset
      (fun h => (mine_graph_k (some lgSingle) 1 0 LMode.dataflow
        [{0}, {1}]).hashCounts.count h)) =
      (mine_graph_k (some lgSingle) 1 0 LMode.dataflow [{0}, {1}]).totalUnits ∧
    frequency 1 2 * 2 = 1 :=
  ⟨(mining_counts_consistent [(some lgSingle, 1, 0, LMode.dataflow, [{0}, {1}])]).1
      _ (List.mem_singleton_self _),
   ((mining_counts_consistent []).2.2 1 2).1 (by omega)⟩

/- ===================================================================
   Part 5: the interaction-edge-count sampler
   (pattern_miner.sample_subgraphs_by_interaction_k and
   pattern_miner.count_interaction_edges).

   random.choice is modelled by a pick oracle receiving the current node
   set and the offered neighbor set; the per-sample seed edge is drawn
   from the graph's interaction-edge list.  The bounded expansion loop
   becomes fuel recursion with fuel k*10.
   =================================================================== -/

/-- Successor set in a built interaction graph. -/
def iSuccs (G : IGraph) (n : Nat) : Finset Nat :=
  (G.edges.filterMap (fun e => if e.src = n then some e.dst else none)).toFinset

/-- Predecessor set in a built interaction graph. -/
def iPreds (G : IGraph) (n : Nat) : Finset Nat :=
  (G.edges.filterMap (fun e => if e.dst = n then some e.src else none)).toFinset

/-- Open neighborhood of the current node set (both directions). -/
def iNbhd (G : IGraph) (s : Finset Nat) : Finset Nat :=
  (s.biUnion (fun n => iSuccs G n ∪ iPreds G n)) \ s

/-- Embedding of count_interaction_edges(G.subgraph(nodes)): the number
of interaction edges with both endpoints inside the node set (parallel
edges counted with multiplicity, as the induced multigraph keeps them). -/
def count_interaction_edges (G : IGraph) (s : Finset Nat) : Nat :=
  (G.edges.filter
    (fun e => decide (e.etype = EdgeType.interaction ∧ e.src ∈ s ∧ e.dst ∈ s))).length

/-- All nodes joined to n by an interaction edge, in either direction
(the control/target partners of n's operation). -/
def interactionPartners (G : IGraph) (n : Nat) : Finset Nat :=
  ((G.edges.filterMap (fun e =>
      if e.src = n ∧ e.etype = EdgeType.interaction then some e.dst else none)) ++
    (G.edges.filterMap (fun e =>
      if e.dst = n ∧ e.etype = EdgeType.interaction then some e.src else none))).toFinset

/-- The atomic interaction unit pulled in when the walk adds n. -/
def atomicUnit (G : IGraph) (n : Nat) : Finset Nat :=
  insert n (interactionPartners G n)

/-- The bounded expansion loop of sample_subgraphs_by_interaction_k:
pick a neighbor, add its atomic unit, accept on exact k, abort on
overshoot or exhausted attempts. -/
def expandLoop (G : IGraph) (k : Nat) (pick : Finset Nat → Finset Nat → Nat) :
    Nat → Finset Nat → Option (Finset Nat)
  | 0, _ => none
  | fuel + 1, curr =>
      let nbrs := iNbhd G curr
      if nbrs = ∅ then none
      else
        let nxt := pick curr nbrs
        let curr2 := curr ∪ atomicUnit G nxt
        let ck := count_interaction_edges G curr2
        if ck = k then some curr2
        else if k < ck then none
        else expandLoop G k pick fuel curr2

/-- One sample of sample_subgraphs_by_interaction_k, starting from the
seed interaction edge (u, v): discard if the seed already has more than
k interaction edges, accept immediately on exactly k, otherwise expand
for at most k*10 attempts. -/
def sampleOne (G : IGraph) (k : Nat) (pick : Finset Nat → Finset Nat → Nat)
    (u v : Nat) : Option (Finset Nat) :=
  let curr : Finset Nat := {u, v}
  let c0 := count_interaction_edges G curr
  if k < c0 then none
  else if c0 = k then some curr
  else expandLoop G k pick (k * 10) curr

/-- The graph's interaction edges (seed candidates). -/
def interactionEdgesOf (G : IGraph) : List (Nat × Nat) :=
  (G.edges.filter (fun e => decide (e.etype = EdgeType.interaction))).map
    (fun e => (e.src, e.dst))

/-- Embedding of sample_subgraphs_by_interaction_k: one sampleOne run
per chosen seed edge, keeping the accepted samples only (discarded
samples produce nothing). -/
def sample_subgraphs_by_interaction_k (G : IGraph) (k : Nat)
    (pick : Finset Nat → Finset Nat → Nat) (seeds : List (Nat × Nat)) :
    List (Finset Nat) :=
  if interactionEdgesOf G = [] then []
  else seeds.filterMap (fun p => sampleOne G k pick p.1 p.2)

/-- The walk relation of the expansion phase: each step adds one picked
open-neighborhood node together with its entire atomic interaction unit
(every node joined to it by an interaction edge in either direction),
so an operation's star is never split at the added node. -/
inductive ExpandReach (G : IGraph) : Finset Nat → Finset Nat → Prop where
  | refl (s : Finset Nat) : ExpandReach G s s
  | step (s : Finset Nat) (x : Nat) (t : Finset Nat) :
      x ∈ iNbhd G s → ExpandReach G (s ∪ atomicUnit G x) t → ExpandReach G s t

lemma expandLoop_count (G : IGraph) (k : Nat) (pick : Finset Nat → Finset Nat → Nat) :
    ∀ fuel curr s, expandLoop G k pick fuel curr = some s →
      count_interaction_edges G s = k := by
  intro fuel
  induction fuel with
  | zero => intro curr s h; cases h
  | succ fuel ih =>
    intro curr s h
    rw [expandLoop] at h
    by_cases hnb : iNbhd G curr = ∅
    · rw [if_pos hnb] at h
      cases h
    · rw [if_neg hnb] at h
      by_cases hck : count_interaction_edges G
          (curr ∪ atomicUnit G (pick curr (iNbhd G curr))) = k
      · rw [if_pos hck] at h
        injection h with h
        rw [← h]
        exact hck
      · rw [if_neg hck] at h
        by_cases hover : k < count_interaction_edges G
            (curr ∪ atomicUnit G (pick curr (iNbhd G curr)))
        · rw [if_pos hover] at h
          cases h
        · rw [if_neg hover] at h
          exact ih _ s h

lemma expandLoop_reach (G : IGraph) (k : Nat) (pick : Finset Nat → Finset Nat → Nat)
    (hpick : ∀ c s, s.Nonempty → pick c s ∈ s) :
    ∀ fuel curr s, expandLoop G k pick fuel curr = some s →
      ExpandReach G curr s := by
  intro fuel
  induction fuel with
  | zero => intro curr s h; cases h
  | succ fuel ih =>
    intro curr s h
    rw [expandLoop] at h
    by_cases hnb : iNbhd G curr = ∅
    · rw [if_pos hnb] at h
      cases h
    · rw [if_neg hnb] at h
      have hmem : pick curr (iNbhd G curr) ∈ iNbhd G curr :=
        hpick curr (iNbhd G curr) (Finset.nonempty_iff_ne_empty.mpr hnb)
      by_cases hck : count_interaction_edges G
          (curr ∪ atomicUnit G (pick curr (iNbhd G curr))) = k
      · rw [if_pos hck] at h
        injection h with h
        rw [← h]
        exact ExpandReach.step curr _ _ hmem (ExpandReach.refl _)
      · rw [if_neg hck] at h
        by_cases hover : k < count_interaction_edges G
            (curr ∪ atomicUnit G (pick curr (iNbhd G curr)))
        · rw [if_pos hover] at h
          cases h
        · rw [if_neg hover] at h
          exact ExpandReach.step curr _ _ hmem (ih _ s h)

lemma sampleOne_count (G : IGraph) (k : Nat) (pick : Finset Nat → Finset Nat → Nat)
    (u v : Nat) (s : Finset Nat) (h : sampleOne G k pick u v = some s) :
    count_interaction_edges G s = k := by
  rw [sampleOne] at h
  by_cases hgt : k < count_interaction_edges G {u, v}
  · rw [if_pos hgt] at h
    cases h
  · rw [if_neg hgt] at h
    by_cases heq : count_interaction_edges G {u, v} = k
    · rw [if_pos heq] at h
      injection h with h
      rw [← h]
      exact heq
    · rw [if_neg heq] at h
      exact expandLoop_count G k pick _ _ s h

/-- Claim C7: every accepted sample of the interaction-edge-count
sampler induces exactly k interaction edges; a seed edge whose initial
induced count exceeds k is discarded; when the seed count is below k
the sampler runs the expansion loop with exactly k*10 attempts of fuel
(and zero fuel always discards); and every accepted sample is reached
from the seed pair by steps that each add the picked neighbor together
with its entire atomic interaction unit. -/
theorem sample_subgraphs_by_interaction_k_correct (G : IGraph) (k : Nat)
    (pick : Finset Nat → Finset Nat → Nat)
    (hpick : ∀ c s, s.Nonempty → pick c s ∈ s)
    (seeds : List (Nat × Nat)) :
    (∀ s ∈ sample_subgraphs_by_interaction_k G k pick seeds,
        count_interaction_edges G s = k)
    ∧ (∀ u v, k < count_interaction_edges G {u, v} → sampleOne G k pick u v = none)
    ∧ (∀ u v, count_interaction_edges G {u, v} < k →
        sampleOne G k pick u v = expandLoop G k pick (k * 10) {u, v})
    ∧ (∀ curr, expandLoop G k pick 0 curr = none)
    ∧ (∀ u v s, sampleOne G k pick u v = some s → ExpandReach G {u, v} s) := by
  refine ⟨?_, ?_, ?_, ?_, ?_⟩
  · intro s hs
    rw [sample_subgraphs_by_interaction_k] at hs
    by_cases hie : interactionEdgesOf G = []
    · rw [if_pos hie] at hs
      cases hs
    · rw [if_neg hie] at hs
      obtain ⟨p, _, hp⟩ := List.mem_filterMap.mp hs
      exact sampleOne_count G k pick p.1 p.2 s hp
  · intro u v hgt
    rw [sampleOne]
    rw [if_pos hgt]
  · intro u v hlt
    rw [sampleOne]
    rw [if_neg (by omega), if_neg (by omega)]
  · intro curr
    rfl
  · intro u v s h
    rw [sampleOne] at h
    by_cases hgt : k < count_interaction_edges G {u, v}
    · rw [if_pos hgt] at h
      cases h
    · rw [if_neg hgt] at h
      by_cases heq : count_interaction_edges G {u, v} = k
      · rw [if_pos heq] at h
        injection h with h
        rw [← h]
        exact ExpandReach.refl _
      · rw [if_neg heq] at h
        exact expandLoop_reach G k pick hpick _ _ s h

/-- A deterministic pick oracle: the least offered neighbor. -/
def pickMin (_c s : Finset Nat) : Nat := if h : s.Nonempty then s.min' h else 0

lemma pickMin_mem : ∀ c s : Finset Nat, s.Nonempty → pickMin c s ∈ s := by
  intro _ s h
  rw [pickMin, dif_pos h]
  exact Finset.min'_mem s h

/-- Concrete check for C7 on the mixed circuit's interaction graph: the
seed edge (3,4) (the cx star) is accepted immediately for k = 1 and the
accepted sample indeed induces exactly one interaction edge. -/
theorem sample_subgraphs_by_interaction_k_correct_witness :
    ({3, 4} : Finset Nat) ∈ sample_subgraphs_by_interaction_k
        (build_interaction_graph exMixI) 1 pickMin [(3, 4)] ∧
    count_interaction_edges (build_interaction_graph exMixI) {3, 4} = 1 :=
  ⟨by decide,
   (sample_subgraphs_by_interaction_k_correct (build_interaction_graph exMixI) 1
      pickMin pickMin_mem [(3, 4)]).1 {3, 4} (by decide)⟩

/- ===================================================================
   Part 6: process exit behavior of a mining run
   (pattern_miner.mine_patterns setup phase and the __main__ block).

   The script calls mine_patterns from __main__ with no exception
   handling and no sys.exit call anywhere: every path that returns from
   mine_patterns makes the interpreter exit with status zero.  A run is
   modelled by the list of printed lines together with the process exit
   code; the ranked-pattern summary printing of a completed run is
   abstracted as a given list of lines.
   =================================================================== -/

/-- The observable outcome of one invocation of the script. -/
structure RunOutput where
  output : List String
  exitCode : Nat
deriving DecidableEq

/-- Embedding of the control flow of mine_patterns around the
no-input-files check: the file-count header is always printed; with no
files the stated message is printed and the function returns (so the
process exits 0); otherwise the run completes and prints the summary
lines (and the process exits 0 as well). -/
def minePatternsRun (files : List String) (summary : List String) : RunOutput :=
  let header := "Found " ++ natToStr files.length ++ " QASM files."
  if files.isEmpty then
    { output := [header, "No QASM files found. Exiting."], exitCode := 0 }
  else
    { output := header :: summary, exitCode := 0 }

/-- Claim C9 (refuting the non-zero half): with no input files the run
does print the stated error message, but the process exit status is 0,
not non-zero — mine_patterns just returns and __main__ falls through. -/
theorem mine_patterns_no_files_exit_zero :
    (minePatternsRun [] []).exitCode = 0 ∧
    "No QASM files found. Exiting." ∈ (minePatternsRun [] []).output := by
  constructor
  · rfl
  · rw [minePatternsRun]
    simp only [List.isEmpty_nil, if_pos]
    exact List.mem_cons_of_mem _ (List.mem_singleton.mpr rfl)

/-- Claim C9 (amended): every run exits with status zero; the no-files
run prints the file-count header followed by the stated error message
(and nothing else — no summary), while a run with input files prints
the header followed by the ranked-pattern summary lines. -/
theorem mine_patterns_exit_behavior (files summary : List String) :
    (minePatternsRun files summary).exitCode = 0
    ∧ (files = [] →
        (minePatternsRun files summary).output =
          ["Found 0 QASM files.", "No QASM files found. Exiting."])
    ∧ (files ≠ [] →
        (minePatternsRun files summary).output =
          ("Found " ++ natToStr files.length ++ " QASM files.") :: summary) := by
  refine ⟨?_, ?_, ?_⟩
  · rw [minePatternsRun]
    by_cases hf : files.isEmpty
    · simp only [hf, if_pos]
    · simp only [hf, if_neg, Bool.false_eq_true, not_false_iff]
  · intro h
    subst h
    rfl
  · intro h
    rw [minePatternsRun]
    simp only [List.isEmpty_eq_true] at *
    rw [if_neg h]

/-- Concrete check for C9: a run on one file exits 0 and prints the
header and the summary line. -/
theorem mine_patterns_exit_behavior_witness :
    (minePatternsRun ["a.qasm"] ["rank1"]).exitCode = 0 ∧
    (minePatternsRun ["a.qasm"] ["rank1"]).output =
      ("Found " ++ natToStr 1 ++ " QASM files.") :: ["rank1"] :=
  ⟨(mine_patterns_exit_behavior ["a.qasm"] ["rank1"]).1,
   (mine_patterns_exit_behavior ["a.qasm"] ["rank1"]).2.2 (by simp)⟩
